import Mathlib

/-!
Verification development for the `mlang` compiler (styles-lab/mlang).

This file gives a shallow embedding, in Lean, of the parts of the repository
needed to settle the frozen claims: the IR data model, the semantic analyzer
(`src/lang/analyzer.rs`), the recursive-descent parser
(`src/lang/parser/*.rs` over the `parserc` combinator crate), the serde code
generator (`src/lang/rustgen/serde/{mod,ser}.rs`) and the runtime `bool`
deserializer (`src/rt/serde/de.rs`).

The repository's `ir` module (`src/lang/ir.rs`) and the parser helper modules
(`utils.rs`, `field.rs`, `lit.rs`, `prop.rs`) are not present under `src/`;
definitions embedding those parts are modelled from the specification and are
marked `Modelled from the spec:` in their doc comments.  Everything else is
translated directly from the Rust source.
-/

namespace Mlang

/-- Byte-offset span into the source (`parserc::Span`).  Only the offset and
length components are modelled; `extend_to` and `extend_to_inclusive` are the
span-combining operations used by the parser. -/
structure Span where
  offset : Nat
  len : Nat
deriving DecidableEq

/-- `Span::extend_to`: the half-open span from the start of `a` to the start
of `b` (used with `b = ctx.span()`, the remaining-input span). -/
def Span.extendTo (a b : Span) : Span :=
  ⟨a.offset, b.offset - a.offset⟩

/-- `Span::extend_to_inclusive`: the span from the start of `a` through the
end of `b` inclusive. -/

def Span.extendToInclusive (a b : Span) : Span :=
  ⟨a.offset, b.offset + b.len - a.offset⟩

/-- `Ident`: a source-located identifier, `(Span, String)`. -/
abbrev Ident := Span × String

/-- Modelled from the spec: a literal call parameter (the `lit` module is not
under `src/`); the spec uses literal strings (for `rename`) and hexadecimal
integer literals. -/
inductive Lit where
  | str (s : String)
  | uint (n : Nat)
deriving DecidableEq

/-- A property call `ident(params...)`: target identifier plus literal
parameter list. -/
structure Call where
  target : Ident
  params : List Lit
deriving DecidableEq

/-- A `[call, call, ...]` property block attached to a declaration or field. -/
structure Property where
  span : Span
  calls : List Call
deriving DecidableEq

/-- Documentation comment metadata (contents irrelevant to the claims). -/
structure Comment where
  span : Span
  text : String
deriving DecidableEq

/-- `Type`: field types, mirroring the spec's sum
(primitives, `Data(Ident)`, `ListOf`, `ArrayOf`). -/
inductive Ty where
  | bool | string | byte | ubyte | short | ushort | int | uint | long | ulong
  | float | double
  | data (ident : Ident)
  | listOf (component : Ty) (span : Span)
  | arrayOf (component : Ty) (length : Nat) (span : Span)
deriving DecidableEq

/-- A named field `name: Type` with its own prefix metadata. -/
structure NamedField where
  comments : List Comment
  properties : List Property
  ident : Ident
  ty : Ty
deriving DecidableEq

/-- A positional (unnamed) field: a bare type.  The grammar attaches no
prefix to tuple components, so it carries no properties. -/
structure UnnamedField where
  ty : Ty
deriving DecidableEq

/-- Modelled from the spec: `Fields` (the `ir` module is not under `src/`) —
either a named-field record, a positional tuple, or unit (empty). -/
inductive Fields where
  | unit
  | named (fields : List NamedField)
  | unnamed (fields : List UnnamedField)
deriving DecidableEq

/-- The list of field types, in declared order (the analyzer iterates
`node.fields.iter()` and checks `field.ty()`). -/
def Fields.tys : Fields → List Ty
  | .unit => []
  | .named fs => fs.map (·.ty)
  | .unnamed fs => fs.map (·.ty)

/-- `Fields::is_tuple`: true for the positional tuple and unit forms — the
node grammar requires a terminating `;` exactly for these. -/
def Fields.isTuple : Fields → Bool
  | .unit => true
  | .named _ => false
  | .unnamed _ => true

/-- Modelled from the spec: `Fields::append` (the `ir` module is not under
`src/`) — merges two field lists of the same shape (both named or both
unnamed); mixing shapes is a structured error returning the original fields.
The spec's mixin-merge scenario (§8 B: `Rect` ends with fields `id, w, h`)
fixes the order: the appended (mixin) fields precede the receiver's own. -/
def Fields.append : Fields → Fields → Except Fields Fields
  | .unit, other => .ok other
  | f, .unit => .ok f
  | .named fs, .named os => .ok (.named (os ++ fs))
  | .unnamed fs, .unnamed os => .ok (.unnamed (os ++ fs))
  | f, _ => .error f

/-- `Node`: shared shape of `el`, `leaf`, `attr`, `data`, `mixin`
declarations. -/
structure Node where
  ident : Ident
  mixin : Option Ident
  fields : Fields
  properties : List Property
  comments : List Comment
  span : Span
deriving DecidableEq

/-- `Enum`: a named declaration whose variants are nested node shapes. -/
structure EnumDecl where
  span : Span
  comments : List Comment
  properties : List Property
  ident : Ident
  fields : List Node
deriving DecidableEq

/-- `Group`: a named tuple of declaration references. -/
structure Group where
  span : Span
  comments : List Comment
  properties : List Property
  ident : Ident
  children : List Ident
deriving DecidableEq

/-- `ApplyTo`: `apply <from> to <to>;`. -/
structure ApplyTo where
  span : Span
  comments : List Comment
  properties : List Property
  from_ : List Ident
  to_ : List Ident
deriving DecidableEq

/-- `ChildrenOf`: `children <from> of <to>;`. -/
structure ChildrenOf where
  span : Span
  comments : List Comment
  properties : List Property
  from_ : List Ident
  to_ : List Ident
deriving DecidableEq

/-- `Stat`: the statement sum type of the IR. -/
inductive Stat where
  | element (node : Node)
  | leaf (node : Node)
  | attr (node : Node)
  | data (node : Node)
  | mixin (node : Node)
  | enum (node : EnumDecl)
  | group (node : Group)
  | applyTo (node : ApplyTo)
  | childrenOf (node : ChildrenOf)
deriving DecidableEq

/-- The declared name of a statement, when it has one (`ApplyTo` and
`ChildrenOf` declare no names). -/
def Stat.name : Stat → Option Ident
  | .element n | .leaf n | .attr n | .data n | .mixin n => some n.ident
  | .enum e => some e.ident
  | .group g => some g.ident
  | .applyTo _ | .childrenOf _ => none

/-! ## Semantic analyzer (`src/lang/analyzer.rs`) -/

/-- `AnalyzerError`: the analyzer's structured diagnostics. -/
inductive AnalyzerError where
  | duplicate (name : String) (previous : Span)
  | unknown (name : String)
  | group (name : String) (declSpan : Span)
  | merge (name : String) (declSpan : Span)
  | variableOption (name : String)
  | rename
deriving DecidableEq

/-- First-match lookup in an association list (models `HashMap::get`). -/
def lookupA (k : String) : List (String × Span × Nat) → Option (Span × Nat)
  | [] => none
  | (k', v) :: rest => if k' = k then some v else lookupA k rest

/-- Remove every entry with the given key. -/
def eraseA (k : String) : List (String × Span × Nat) → List (String × Span × Nat)
  | [] => []
  | (k', v) :: rest => if k' = k then eraseA k rest else (k', v) :: eraseA k rest

/-- `HashMap::insert`: replaces the binding and returns the previous value. -/
def insertA (k : String) (v : Span × Nat) (l : List (String × Span × Nat)) :
    Option (Span × Nat) × List (String × Span × Nat) :=
  (lookupA k l, (k, v) :: eraseA k l)

/-- The three symbol tables of the analyzer (each keyed by identifier string,
valued by `(span, index-into-slice)`). -/
structure Tables where
  symbols : List (String × Span × Nat)
  mixins : List (String × Span × Nat)
  groups : List (String × Span × Nat)
deriving DecidableEq

/-- Mutable check state: the accumulated error count and the diagnostics
reported to the `MLANG_ANALYZER` log sink, in order. -/
structure CheckSt where
  errors : Nat
  diags : List AnalyzerError
deriving DecidableEq

/-- Report a diagnostic through the sink (models `log::error!`). -/
def CheckSt.report (st : CheckSt) (d : AnalyzerError) : CheckSt :=
  { st with diags := st.diags ++ [d] }

/-- Increment the accumulated error count. -/
def CheckSt.bump (st : CheckSt) : CheckSt :=
  { st with errors := st.errors + 1 }

/-- `SymbolTable::add`: insert, reporting `Duplicate` (with the previous
span) when the key was already bound; the new binding wins. -/
def symbolAdd (index : Nat) (ident : Ident) (tbl : List (String × Span × Nat))
    (st : CheckSt) : List (String × Span × Nat) × CheckSt × Bool :=
  match insertA ident.2 (ident.1, index) tbl with
  | (some (prevSpan, _), tbl') =>
      (tbl', st.report (.duplicate ident.2 prevSpan), false)
  | (none, tbl') => (tbl', st, true)

/-- Pass 1 (`build_index`): walk the slice once, inserting each named
declaration into the appropriate tables; duplicate insertion into the symbol
table increments the error count. -/
def buildIndexLoop (l : List (Nat × Stat)) (tbls : Tables) (st : CheckSt) :
    Tables × CheckSt :=
  match l with
  | [] => (tbls, st)
  | (index, stat) :: rest =>
    match stat with
    | .element node | .leaf node | .attr node | .data node =>
        let (sy, st, ok) := symbolAdd index node.ident tbls.symbols st
        let st := if ok then st else st.bump
        buildIndexLoop rest { tbls with symbols := sy } st
    | .mixin node =>
        let (sy, st, ok) := symbolAdd index node.ident tbls.symbols st
        let st := if ok then st else st.bump
        let (mx, mxTbl) := insertA node.ident.2 (node.ident.1, index) tbls.mixins
        let _ := mx
        buildIndexLoop rest { tbls with symbols := sy, mixins := mxTbl } st
    | .enum node =>
        let (sy, st, ok) := symbolAdd index node.ident tbls.symbols st
        let st := if ok then st else st.bump
        buildIndexLoop rest { tbls with symbols := sy } st
    | .group node =>
        let (sy, st, ok) := symbolAdd index node.ident tbls.symbols st
        let st := if ok then st else st.bump
        let (gr, grTbl) := insertA node.ident.2 (node.ident.1, index) tbls.groups
        let _ := gr
        buildIndexLoop rest { tbls with symbols := sy, groups := grTbl } st
    | .applyTo _ | .childrenOf _ => buildIndexLoop rest tbls st

/-- Enumerate a list with its indices, starting from `i`. -/
def enumFrom (i : Nat) : List Stat → List (Nat × Stat)
  | [] => []
  | s :: rest => (i, s) :: enumFrom (i + 1) rest

/-- `build_index` over a whole statement slice. -/
def buildIndex (stats : List Stat) : Tables × CheckSt :=
  buildIndexLoop (enumFrom 0 stats) ⟨[], [], []⟩ ⟨0, []⟩

/-- `SemanticAnalyzer::symbol_check`: resolve an identifier in the symbol
table.  Returns `true` when it resolves to a non-group symbol; resolving to a
group reports `Group` only when a type was expected; an unknown symbol always
reports `Unknown` and counts as an error. -/
def symbolCheck (opcodes : List Stat) (tbls : Tables) (ident : Ident)
    (expectType : Bool) (st : CheckSt) : CheckSt × Bool :=
  match lookupA ident.2 tbls.symbols with
  | some (_, index) =>
    match opcodes[index]? with
    | some (.group g) =>
        if expectType then
          ((st.bump).report (.group g.ident.2 g.ident.1), false)
        else
          (st, false)
    | _ => (st, true)
  | none => ((st.bump).report (.unknown ident.2), false)

/-- `SemanticAnalyzer::type_check`: a `Data` type must resolve to a declared
non-group symbol; list/array types recurse into their component. -/
def typeCheck (opcodes : List Stat) (tbls : Tables) (st : CheckSt) :
    Ty → CheckSt
  | .data ident => (symbolCheck opcodes tbls ident true st).1
  | .listOf component _ => typeCheck opcodes tbls st component
  | .arrayOf component _ _ => typeCheck opcodes tbls st component
  | _ => st

/-- Fold `type_check` over a list of field types. -/
def typeCheckFields (opcodes : List Stat) (tbls : Tables) :
    List Ty → CheckSt → CheckSt
  | [], st => st
  | t :: rest, st => typeCheckFields opcodes tbls rest (typeCheck opcodes tbls st t)

/-- One call of the property-validation loop of `node_check` (the Rust
`match` over `call.target.1.as_str()` is a comparison chain over the string):
`option|variable|init` demand an empty parameter list (error counted);
`rename` demands exactly one parameter (diagnostic reported, but the error
count is not incremented — mirroring the source). -/
def callCheck (call : Call) (st : CheckSt) : CheckSt :=
  if call.target.2 = "option" ∨ call.target.2 = "variable" ∨ call.target.2 = "init" then
    if call.params.length ≠ 0 then (st.bump).report (.variableOption call.target.2)
    else st
  else if call.target.2 = "rename" then
    if call.params.length ≠ 1 then st.report .rename
    else st
  else st

/-- The inner loop over a property's calls. -/
def callsCheck : List Call → CheckSt → CheckSt
  | [], st => st
  | call :: calls, st => callsCheck calls (callCheck call st)

/-- The property-validation loop over all properties of a node. -/
def propCheck : List Property → CheckSt → CheckSt
  | [], st => st
  | property :: rest, st => propCheck rest (callsCheck property.calls st)

/-- `SemanticAnalyzer::node_check`: type-check fields, validate property
calls, then resolve a set `mixin` slot.  Returns the rewritten node (mixin
merged and cleared) when a rewrite is needed, `none` otherwise.  A mixin-table
entry pointing at a non-mixin statement is an internal panic, modelled by the
outer `Option` being `none`. -/
def nodeCheck (opcodes : List Stat) (tbls : Tables) (node : Node)
    (st : CheckSt) : Option (CheckSt × Option Node) :=
  let st := typeCheckFields opcodes tbls node.fields.tys st
  let st := propCheck node.properties st
  match node.mixin with
  | some mixinRef =>
    match lookupA mixinRef.2 tbls.mixins with
    | some (_, index) =>
      match opcodes[index]? with
      | some (.mixin mixinNode) =>
          let expand := mixinNode.fields
          let fields := node.fields
          let (st, fields) :=
            match fields.append expand with
            | .ok fields => (st, fields)
            | .error fields =>
                (st.report (.merge mixinNode.ident.2 mixinNode.ident.1), fields)
          some (st, some { span := node.span, comments := node.comments,
                           mixin := none, properties := node.properties,
                           ident := node.ident, fields := fields })
      | _ => none
    | none =>
        some (st.report (.unknown mixinRef.2), none)
  | none => some (st, none)

/-- `SemanticAnalyzer::enum_check`: type-check every field of every variant. -/
def enumCheck (opcodes : List Stat) (tbls : Tables) (node : EnumDecl)
    (st : CheckSt) : CheckSt :=
  go node.fields st
where
  /-- Loop over the variants. -/
  go : List Node → CheckSt → CheckSt
  | [], st => st
  | variant :: rest, st =>
      go rest (typeCheckFields opcodes tbls variant.fields.tys st)

/-- `SemanticAnalyzer::group_check`: every child must resolve to a declared
non-group symbol. -/
def groupCheck (opcodes : List Stat) (tbls : Tables) (node : Group)
    (st : CheckSt) : CheckSt :=
  go node.children st
where
  /-- Loop over the children. -/
  go : List Ident → CheckSt → CheckSt
  | [], st => st
  | ident :: rest, st => go rest (symbolCheck opcodes tbls ident true st).1

/-- `SemanticAnalyzer::expand_with_group`: resolve an identifier in the group
table and return the group's children; unknown identifiers are reported (the
count is not incremented — the method takes `&self`).  A group-table entry
pointing at a non-group statement is an internal panic (`none`). -/
def expandWithGroup (opcodes : List Stat) (tbls : Tables) (ident : Ident)
    (st : CheckSt) : Option (CheckSt × Option (List Ident)) :=
  match lookupA ident.2 tbls.groups with
  | some (_, index) =>
    match opcodes[index]? with
    | some (.group g) => some (st, some g.children)
    | _ => none
  | none => some (st.report (.unknown ident.2), none)

/-- Endpoint-expansion loop shared by `apply_to_check` and
`children_of_check`: keep identifiers resolving to non-group symbols, replace
group identifiers by the group's children, drop unknown ones. -/
def expandEndpoints (opcodes : List Stat) (tbls : Tables) :
    List Ident → CheckSt → Option (CheckSt × List Ident)
  | [], st => some (st, [])
  | ident :: rest, st =>
    match symbolCheck opcodes tbls ident false st with
    | (st, true) =>
      match expandEndpoints opcodes tbls rest st with
      | some (st, expanded) => some (st, ident :: expanded)
      | none => none
    | (st, false) =>
      match expandWithGroup opcodes tbls ident st with
      | some (st, some children) =>
        match expandEndpoints opcodes tbls rest st with
        | some (st, expanded) => some (st, children ++ expanded)
        | none => none
      | some (st, none) =>
        match expandEndpoints opcodes tbls rest st with
        | some (st, expanded) => some (st, expanded)
        | none => none
      | none => none

/-- `SemanticAnalyzer::apply_to_check`: expand both endpoint lists and return
the flattened replacement statement (always produced). -/
def applyToCheck (opcodes : List Stat) (tbls : Tables) (node : ApplyTo)
    (st : CheckSt) : Option (CheckSt × Stat) :=
  match expandEndpoints opcodes tbls node.from_ st with
  | some (st, fromExpand) =>
    match expandEndpoints opcodes tbls node.to_ st with
    | some (st, toExpand) =>
        some (st, .applyTo { span := node.span, comments := node.comments,
                             properties := node.properties,
                             from_ := fromExpand, to_ := toExpand })
    | none => none
  | none => none

/-- `SemanticAnalyzer::children_of_check`: identical expansion for
`children ... of ...`. -/
def childrenOfCheck (opcodes : List Stat) (tbls : Tables) (node : ChildrenOf)
    (st : CheckSt) : Option (CheckSt × Stat) :=
  match expandEndpoints opcodes tbls node.from_ st with
  | some (st, fromExpand) =>
    match expandEndpoints opcodes tbls node.to_ st with
    | some (st, toExpand) =>
        some (st, .childrenOf { span := node.span, comments := node.comments,
                                properties := node.properties,
                                from_ := fromExpand, to_ := toExpand })
    | none => none
  | none => none

/-- Pass 2 (`check`) walk: iterate the (still original) slice, collecting the
deferred replacement list.  The `Mixin` arm asserts that `node_check` returns
no rewrite (a mixin must not itself reference another mixin); an assertion
failure is a panic (`none`). -/
def checkLoop (opcodes : List Stat) (tbls : Tables) :
    List (Nat × Stat) → CheckSt → Option (CheckSt × List (Nat × Stat))
  | [], st => some (st, [])
  | (index, stat) :: rest, st =>
    match stat with
    | .element node =>
      match nodeCheck opcodes tbls node st with
      | some (st, some node) => consUpdate (index, .element node) (checkLoop opcodes tbls rest st)
      | some (st, none) => checkLoop opcodes tbls rest st
      | none => none
    | .leaf node =>
      match nodeCheck opcodes tbls node st with
      | some (st, some node) => consUpdate (index, .leaf node) (checkLoop opcodes tbls rest st)
      | some (st, none) => checkLoop opcodes tbls rest st
      | none => none
    | .attr node =>
      match nodeCheck opcodes tbls node st with
      | some (st, some node) => consUpdate (index, .attr node) (checkLoop opcodes tbls rest st)
      | some (st, none) => checkLoop opcodes tbls rest st
      | none => none
    | .mixin node =>
      match nodeCheck opcodes tbls node st with
      | some (st, none) => checkLoop opcodes tbls rest st
      | _ => none
    | .data node =>
      match nodeCheck opcodes tbls node st with
      | some (st, some node) => consUpdate (index, .data node) (checkLoop opcodes tbls rest st)
      | some (st, none) => checkLoop opcodes tbls rest st
      | none => none
    | .enum node => checkLoop opcodes tbls rest (enumCheck opcodes tbls node st)
    | .group node => checkLoop opcodes tbls rest (groupCheck opcodes tbls node st)
    | .applyTo node =>
      match applyToCheck opcodes tbls node st with
      | some (st, update) => consUpdate (index, update) (checkLoop opcodes tbls rest st)
      | none => none
    | .childrenOf node =>
      match childrenOfCheck opcodes tbls node st with
      | some (st, update) => consUpdate (index, update) (checkLoop opcodes tbls rest st)
      | none => none
where
  /-- Prepend an update onto the updates produced by the rest of the walk. -/
  consUpdate (u : Nat × Stat) :
      Option (CheckSt × List (Nat × Stat)) → Option (CheckSt × List (Nat × Stat))
  | some (st, updates) => some (st, u :: updates)
  | none => none

/-- Apply the deferred updates (`opcodes[index] = update`) after the walk. -/
def applyUpdates (stats : List Stat) : List (Nat × Stat) → List Stat
  | [] => stats
  | (index, update) :: rest => applyUpdates (stats.set index update) rest

/-- `semantic_analyze` / `SemanticAnalyzer::analyze`: build the index, run the
check-and-rewrite pass, apply the deferred updates, and succeed iff zero
errors were accumulated.  The result carries the success flag, the rewritten
slice, and the diagnostics reported to the sink; a panicking run is `none`. -/
def semanticAnalyze (stats : List Stat) : Option (Bool × List Stat × List AnalyzerError) :=
  let (tbls, st) := buildIndex stats
  match checkLoop stats tbls (enumFrom 0 stats) st with
  | some (st, updates) =>
      some (st.errors = 0, applyUpdates stats updates, st.diags)
  | none => none

/-! ## Pure characterizations of the check pass

The error contribution of every checker is independent of the threaded state;
the following functions compute those contributions directly, and the lemmas
below relate them to the state-threaded definitions. -/

/-- The boolean returned by `symbol_check` (state-independent): the
identifier resolves to a declared non-group symbol. -/
def symbolCheckB (opcodes : List Stat) (tbls : Tables) (ident : Ident) : Bool :=
  match lookupA ident.2 tbls.symbols with
  | some (_, index) =>
    match opcodes[index]? with
    | some (.group _) => false
    | _ => true
  | none => false

/-- The error contribution of `symbol_check`. -/
def symbolCheckErr (opcodes : List Stat) (tbls : Tables) (ident : Ident)
    (expectType : Bool) : Nat :=
  match lookupA ident.2 tbls.symbols with
  | some (_, index) =>
    match opcodes[index]? with
    | some (.group _) => if expectType then 1 else 0
    | _ => 0
  | none => 1

/-- The error contribution of `type_check`. -/
def typeCheckErr (opcodes : List Stat) (tbls : Tables) : Ty → Nat
  | .data ident => symbolCheckErr opcodes tbls ident true
  | .listOf component _ => typeCheckErr opcodes tbls component
  | .arrayOf component _ _ => typeCheckErr opcodes tbls component
  | _ => 0

/-- Error contribution of type-checking a list of field types. -/
def typeListErr (opcodes : List Stat) (tbls : Tables) (l : List Ty) : Nat :=
  (l.map (typeCheckErr opcodes tbls)).sum

/-- Error contribution of one property call (`rename` arity violations
report but do not count). -/
def callErrN (call : Call) : Nat :=
  if call.target.2 = "option" ∨ call.target.2 = "variable" ∨ call.target.2 = "init" then
    if call.params.length ≠ 0 then 1 else 0
  else 0

/-- Error contribution of the loop over one property's calls. -/
def callsErr (l : List Call) : Nat :=
  (l.map callErrN).sum

/-- Error contribution of the property-validation loop. -/
def propErr (l : List Property) : Nat :=
  (l.map (fun p => callsErr p.calls)).sum

/-- Error contribution of `node_check` (the mixin-resolution branch reports
`Merge`/`Unknown` diagnostics but contributes no errors). -/
def nodeErr (opcodes : List Stat) (tbls : Tables) (n : Node) : Nat :=
  typeListErr opcodes tbls n.fields.tys + propErr n.properties

/-- Error contribution of `enum_check`. -/
def enumErr (opcodes : List Stat) (tbls : Tables) (e : EnumDecl) : Nat :=
  (e.fields.map (fun v => typeListErr opcodes tbls v.fields.tys)).sum

/-- Error contribution of `group_check`. -/
def groupErr (opcodes : List Stat) (tbls : Tables) (g : Group) : Nat :=
  (g.children.map (fun c => symbolCheckErr opcodes tbls c true)).sum

/-- Error contribution of endpoint expansion (`expand_with_group` itself
contributes none). -/
def endpointsErr (opcodes : List Stat) (tbls : Tables) (l : List Ident) : Nat :=
  (l.map (fun c => symbolCheckErr opcodes tbls c false)).sum

/-- The pure expansion of one link endpoint: keep a non-group resolution,
replace a group reference by its children, drop an unknown identifier. -/
def expandE (opcodes : List Stat) (tbls : Tables) (ident : Ident) : List Ident :=
  if symbolCheckB opcodes tbls ident then [ident]
  else
    match lookupA ident.2 tbls.groups with
    | some (_, index) =>
      match opcodes[index]? with
      | some (.group g) => g.children
      | _ => []
    | none => []

/-- The pure rewrite of an `ApplyTo` statement. -/
def expandApplyPure (opcodes : List Stat) (tbls : Tables) (a : ApplyTo) : ApplyTo :=
  { span := a.span, comments := a.comments, properties := a.properties,
    from_ := a.from_.flatMap (expandE opcodes tbls),
    to_ := a.to_.flatMap (expandE opcodes tbls) }

/-- The pure rewrite of a `ChildrenOf` statement. -/
def expandChildrenPure (opcodes : List Stat) (tbls : Tables) (c : ChildrenOf) : ChildrenOf :=
  { span := c.span, comments := c.comments, properties := c.properties,
    from_ := c.from_.flatMap (expandE opcodes tbls),
    to_ := c.to_.flatMap (expandE opcodes tbls) }

/-- Error contribution of one statement in the check pass. -/
def statErr (opcodes : List Stat) (tbls : Tables) : Stat → Nat
  | .element n | .leaf n | .attr n | .data n | .mixin n => nodeErr opcodes tbls n
  | .enum e => enumErr opcodes tbls e
  | .group g => groupErr opcodes tbls g
  | .applyTo a => endpointsErr opcodes tbls a.from_ + endpointsErr opcodes tbls a.to_
  | .childrenOf c => endpointsErr opcodes tbls c.from_ + endpointsErr opcodes tbls c.to_

/-- Total error contribution of the check pass over an enumerated slice. -/
def listErr (opcodes : List Stat) (tbls : Tables) (l : List (Nat × Stat)) : Nat :=
  (l.map (fun p => statErr opcodes tbls p.2)).sum

/-- The endpoint identifiers of a statement (empty for non-link statements). -/
def Stat.endpoints : Stat → List Ident
  | .applyTo a => a.from_ ++ a.to_
  | .childrenOf c => c.from_ ++ c.to_
  | _ => []

/-- Whether `n` is the name of some group declaration in the slice. -/
def groupNameB (stats : List Stat) (n : String) : Bool :=
  stats.any fun s =>
    match s with
    | .group g => g.ident.2 == n
    | _ => false

/-! ## Association-list lemmas -/

/-! ## Pass-1 (`build_index`) invariants -/

/-- Provenance invariant for the symbol table: every entry points back at a
statement in the slice carrying that name. -/
def SymProv (stats : List Stat) (tbl : List (String × Span × Nat)) : Prop :=
  ∀ e ∈ tbl, ∃ s, stats[e.2.2]? = some s ∧ s.name = some (e.2.1, e.1)

/-- Provenance invariant for the group table: every entry points back at a
group declaration with that name. -/
def GrpProv (stats : List Stat) (tbl : List (String × Span × Nat)) : Prop :=
  ∀ e ∈ tbl, ∃ g, stats[e.2.2]? = some (.group g) ∧ g.ident = (e.2.1, e.1)

/-! ## Check-pass error decomposition -/

/-- Relation between an original statement and the deferred update the check
pass produced for it. -/
def updRel (opcodes : List Stat) (tbls : Tables) (s u : Stat) : Prop :=
  match s with
  | .applyTo a => u = .applyTo (expandApplyPure opcodes tbls a)
  | .childrenOf c => u = .childrenOf (expandChildrenPure opcodes tbls c)
  | .element _ => ∃ n, u = .element n
  | .leaf _ => ∃ n, u = .leaf n
  | .attr _ => ∃ n, u = .attr n
  | .data _ => ∃ n, u = .data n
  | _ => False

/-! ## Deferred-update application -/

/-- First update recorded for a given index. -/
def findUpd (j : Nat) : List (Nat × Stat) → Option Stat
  | [] => none
  | (i, u) :: rest => if i = j then some u else findUpd j rest

/-! ## Elimination helpers for the zero-error conditions -/

/-! ## Parser (`src/lang/parser/*.rs` over the `parserc` crate)

The parse context is a character list plus a byte offset.  `PResult` mirrors
`parserc`'s control flow: a recoverable miss (`ControlFlow::Incomplete` /
`Recovable`, which backtracks — callers resume from their saved position), a
fatal error (with the position at which the failing expectation was tried),
and a Rust panic (`assert!`/`panic!`).  Loops are written with an explicit
fuel argument, always instantiated with more fuel than the input length;
every loop iteration of the source consumes at least one character, so the
fuel never runs out on the instantiations used here. -/

/-- Error kinds raised by `parserc` primitives (`parserc::Kind`). -/
inductive ParsercKind where
  | keyword (s : String)
  | char (c : Char)
deriving DecidableEq

/-- `TupleKind`. -/
inductive TupleKind where
  | bodyStart
  | bodyEnd
deriving DecidableEq

/-- `ChildrenOfKind` (source variant names: `Of`, `From`, `To`, `End`). -/
inductive ChildrenOfKind where
  | ofKw
  | fromKw
  | toKw
  | endKw
deriving DecidableEq

/-- `ApplyToKind` (source variant names: `To`, `Target`, `End`). -/
inductive ApplyToKind where
  | toKw
  | target
  | endKw
deriving DecidableEq

/-- `GroupKind` (source variant names: `Assign`, `End`). -/
inductive GroupKind where
  | assign
  | endKw
deriving DecidableEq

/-- `NodeKind` (source variant names: `MixinIdent`, `Fields`, `End`). -/
inductive NodeKind where
  | mixinIdent
  | fieldsExpected
  | endKw
deriving DecidableEq

/-- `NamedFieldKind` (source variant names: `SemiColons`, `Type`). -/
inductive NamedFieldKind where
  | semiColons
  | typeExpected
deriving DecidableEq

/-- `FieldsKind`. -/
inductive FieldsKind where
  | endTag (c : Char)
deriving DecidableEq

/-- `EnumKind` (source variant names: `Ident`, `BodyStart`, `BodyEnd`). -/
inductive EnumKind where
  | identExpected
  | bodyStart
  | bodyEnd
deriving DecidableEq

/-- `TypeKind` (source variant names: `Uint`, `Semicolons`,
`SquareBracketStart`, `SquareBracketEnd`, `Data`). -/
inductive TypeKind where
  | uintExpected
  | semicolons
  | squareBracketStart
  | squareBracketEnd
  | dataExpected
deriving DecidableEq

/-- `CallKind`. -/
inductive CallKind where
  | paramEnd
deriving DecidableEq

/-- `PropKind`. -/
inductive PropKind where
  | missEnd
deriving DecidableEq

/-- `UnitKind` (source variant names: `Prefix`, `MissBody`). -/
inductive UnitKind where
  | hexStart
  | missBody
deriving DecidableEq

/-- `ParseError` (source variant names in comments where renamed: `End`,
`Ident`, `Semantic`, `Parserc`, `Io`, `Unparsed`, `Uint`, `Prop`, `Call`,
`Type`, `Enum`, `Fields`, `NamedField`, `UnnamedField`, `Node`, `Group`,
`Tuple`, `ApplyTo`, `ChildrenOf`). -/
inductive ParseError where
  | endOfInput
  | identInvalid
  | semantic
  | parserc (kind : ParsercKind)
  | ioErr (msg : String)
  | unparsed
  | uintErr (k : UnitKind)
  | prop (k : PropKind)
  | call (k : CallKind)
  | tyErr (k : TypeKind)
  | enumErr (k : EnumKind)
  | fields (k : FieldsKind)
  | namedField (k : NamedFieldKind)
  | unnamedField
  | node (k : NodeKind)
  | group (k : GroupKind)
  | tuple (k : TupleKind)
  | applyTo (k : ApplyToKind)
  | childrenOf (k : ChildrenOfKind)
deriving DecidableEq

/-- Parser outcome: success with value and new position, recoverable miss
(the caller backtracks to its saved position), fatal error (with the
position of the failed expectation), or a Rust panic. -/
inductive PResult (α : Type) where
  | ok (val : α) (pos : Nat)
  | miss (err : ParseError)
  | fatal (err : ParseError) (pos : Nat)
  | panicked (msg : String)
deriving DecidableEq

/-- `ParserExt::fatal`: convert a recoverable miss into the given fatal
error at the position where the parser was tried. -/
def PResult.fatalize {α : Type} (r : PResult α) (err : ParseError) (pos : Nat) :
    PResult α :=
  match r with
  | .miss _ => .fatal err pos
  | r => r

/-- `ctx.span()`: the span of the remaining input. -/
def ctxSpan (input : List Char) (pos : Nat) : Span :=
  ⟨pos, input.length - pos⟩

/-- Modelled from the spec: whitespace recognition (the `utils` module is not
under `src/`). -/
def isWsChar (c : Char) : Bool :=
  c = ' ' ∨ c = '\t' ∨ c = '\n' ∨ c = '\r'

/-- Modelled from the spec: `utils::skip_ws` — consume whitespace (fuel
recursion; comments have no specified lexical form and are handled by
`parsePrefixMeta`). -/
def skipWsF : Nat → List Char → Nat → Nat
  | 0, _, pos => pos
  | fuel + 1, input, pos =>
    match input[pos]? with
    | some c => if isWsChar c then skipWsF fuel input (pos + 1) else pos
    | none => pos

/-- `skip_ws` at full fuel. -/
def skipWs (input : List Char) (pos : Nat) : Nat :=
  skipWsF (input.length + 1) input pos

/-- `parserc::ensure_char`: match one literal character, returning its span. -/
def ensureChar (c : Char) (input : List Char) (pos : Nat) : PResult Span :=
  if input[pos]? = some c then .ok ⟨pos, 1⟩ (pos + 1)
  else .miss (.parserc (.char c))

/-- `parserc::ensure_keyword`: match a literal string, returning its span. -/
def ensureKeyword (kw : String) (input : List Char) (pos : Nat) : PResult Span :=
  if (input.drop pos).take kw.toList.length = kw.toList then
    .ok ⟨pos, kw.toList.length⟩ (pos + kw.toList.length)
  else .miss (.parserc (.keyword kw))

/-- Modelled from the spec: identifier start character (the `Ident` parser is
in the missing `ir`/`utils` modules): a letter or underscore. -/
def isIdentStart (c : Char) : Bool := c.isAlpha ∨ c = '_'

/-- Modelled from the spec: identifier continuation character. -/
def isIdentCont (c : Char) : Bool := c.isAlphanum ∨ c = '_'

/-- First position at or after `pos` whose character does not continue an
identifier. -/
def identEndF : Nat → List Char → Nat → Nat
  | 0, _, pos => pos
  | fuel + 1, input, pos =>
    match input[pos]? with
    | some c => if isIdentCont c then identEndF fuel input (pos + 1) else pos
    | none => pos

/-- Modelled from the spec: `Ident::parse` — a letter or underscore followed
by letters, digits or underscores; a miss reports `ParseError::Ident`. -/
def parseIdent (input : List Char) (pos : Nat) : PResult Ident :=
  match input[pos]? with
  | some c =>
    if isIdentStart c then
      let stop := identEndF (input.length + 1) input (pos + 1)
      .ok (⟨pos, stop - pos⟩, String.mk ((input.drop pos).take (stop - pos))) stop
    else .miss .identInvalid
  | none => .miss .identInvalid

/-- Position just after a run of hexadecimal digits. -/
def hexEndF : Nat → List Char → Nat → Nat
  | 0, _, pos => pos
  | fuel + 1, input, pos =>
    match input[pos]? with
    | some c => if c.isDigit ∨ ('a' ≤ c ∧ c ≤ 'f') ∨ ('A' ≤ c ∧ c ≤ 'F')
        then hexEndF fuel input (pos + 1) else pos
    | none => pos

/-- Numeric value of one hexadecimal digit. -/
def hexDigitVal (c : Char) : Nat :=
  if c.isDigit then c.toNat - '0'.toNat
  else if 'a' ≤ c ∧ c ≤ 'f' then c.toNat - 'a'.toNat + 10
  else if 'A' ≤ c ∧ c ≤ 'F' then c.toNat - 'A'.toNat + 10
  else 0

/-- Value of a list of hexadecimal digits. -/
def hexVal (l : List Char) : Nat :=
  l.foldl (fun acc c => acc * 16 + hexDigitVal c) 0

/-- Modelled from the spec: the hexadecimal unsigned-integer literal parser
(the `lit` module is not under `src/`) — only `0x…` integers are supported;
a missing prefix yields `UnitKind::Prefix`, an empty body `UnitKind::MissBody`. -/
def parseHexUint (input : List Char) (pos : Nat) : PResult Nat :=
  if input[pos]? = some '0' ∧ input[pos + 1]? = some 'x' then
    let stop := hexEndF (input.length + 1) input (pos + 2)
    if stop = pos + 2 then .miss (.uintErr .missBody)
    else .ok (hexVal ((input.drop (pos + 2)).take (stop - (pos + 2)))) stop
  else .miss (.uintErr .hexStart)

/-- Position just after the characters of a string-literal body. -/
def strEndF : Nat → List Char → Nat → Option Nat
  | 0, _, _ => none
  | fuel + 1, input, pos =>
    match input[pos]? with
    | some c => if c = '"' then some pos else strEndF fuel input (pos + 1)
    | none => none

/-- Modelled from the spec: the literal parser for property-call parameters
(the `lit` module is not under `src/`) — a double-quoted string or a
hexadecimal integer. -/
def parseLit (input : List Char) (pos : Nat) : PResult Lit :=
  match input[pos]? with
  | some '"' =>
    match strEndF (input.length + 1) input (pos + 1) with
    | some stop =>
        .ok (.str (String.mk ((input.drop (pos + 1)).take (stop - (pos + 1))))) (stop + 1)
    | none => .miss (.parserc (.char '"'))
  | _ =>
    match parseHexUint input pos with
    | .ok n stop => .ok (.uint n) stop
    | .miss e => .miss e
    | .fatal e p => .fatal e p
    | .panicked m => .panicked m

/-- Parameter-list loop of a property call: `lit (',' lit)*`. -/
def parseCallParamsF : Nat → List Char → Nat → PResult (List Lit)
  | 0, _, _ => .panicked "fuel"
  | fuel + 1, input, pos =>
    match parseLit input pos with
    | .ok lit pos =>
      let pos := skipWs input pos
      match ensureChar ',' input pos with
      | .ok _ pos =>
        match parseCallParamsF fuel input (skipWs input pos) with
        | .ok lits pos => .ok (lit :: lits) pos
        | r => r
      | _ => .ok [lit] pos
    | .miss _ => .ok [] pos
    | .fatal e p => .fatal e p
    | .panicked m => .panicked m

/-- Modelled from the spec: the property-call parser (the `prop` module is
not under `src/`) — `ident ('(' param (',' param)* ')')?`; a missing `)` is
fatal with `CallKind::ParamEnd`. -/
def parseCall (input : List Char) (pos : Nat) : PResult Call :=
  match parseIdent input pos with
  | .ok target pos =>
    let pos := skipWs input pos
    match ensureChar '(' input pos with
    | .ok _ pos1 =>
      match parseCallParamsF (input.length + 1) input (skipWs input pos1) with
      | .ok params pos2 =>
        let pos2 := skipWs input pos2
        match (ensureChar ')' input pos2).fatalize (.call .paramEnd) pos2 with
        | .ok _ pos3 => .ok ⟨target, params⟩ pos3
        | .miss e => .miss e
        | .fatal e p => .fatal e p
        | .panicked m => .panicked m
      | .miss e => .miss e
      | .fatal e p => .fatal e p
      | .panicked m => .panicked m
    | _ => .ok ⟨target, []⟩ pos
  | .miss e => .miss e
  | .fatal e p => .fatal e p
  | .panicked m => .panicked m

/-- Call-list loop of a property block: `call (',' call)*`. -/
def parsePropCallsF : Nat → List Char → Nat → PResult (List Call)
  | 0, _, _ => .panicked "fuel"
  | fuel + 1, input, pos =>
    match parseCall input pos with
    | .ok call pos =>
      let pos := skipWs input pos
      match ensureChar ',' input pos with
      | .ok _ pos =>
        match parsePropCallsF fuel input (skipWs input pos) with
        | .ok calls pos => .ok (call :: calls) pos
        | r => r
      | _ => .ok [call] pos
    | .miss _ => .ok [] pos
    | .fatal e p => .fatal e p
    | .panicked m => .panicked m

/-- Modelled from the spec: the property-block parser (the `prop` module is
not under `src/`) — `'[' call (',' call)* ']'`; a missing `]` is fatal with
`PropKind::MissEnd`. -/
def parseProperty (input : List Char) (pos : Nat) : PResult Property :=
  match ensureChar '[' input pos with
  | .ok start pos1 =>
    match parsePropCallsF (input.length + 1) input (skipWs input pos1) with
    | .ok calls pos2 =>
      let pos2 := skipWs input pos2
      match (ensureChar ']' input pos2).fatalize (.prop .missEnd) pos2 with
      | .ok stop pos3 => .ok ⟨start.extendToInclusive stop, calls⟩ pos3
      | .miss e => .miss e
      | .fatal e p => .fatal e p
      | .panicked m => .panicked m
    | .miss e => .miss e
    | .fatal e p => .fatal e p
    | .panicked m => .panicked m
  | _ => .miss (.parserc (.char '['))

/-- End position of a `///` documentation comment (through end of line). -/
def lineEndF : Nat → List Char → Nat → Nat
  | 0, _, pos => pos
  | fuel + 1, input, pos =>
    match input[pos]? with
    | some c => if c = '\n' then pos + 1 else lineEndF fuel input (pos + 1)
    | none => pos

/-- Modelled from the spec: `utils::parse_prefix` — skip whitespace and
collect the statement prefix `comment* property*` (comments are modelled as
`///`-to-end-of-line lines; their precise lexical form is unspecified). -/
def parsePrefixMetaF : Nat → List Char → Nat → PResult (List Comment × List Property)
  | 0, _, _ => .panicked "fuel"
  | fuel + 1, input, pos =>
    let pos := skipWs input pos
    if (input.drop pos).take 3 = ['/', '/', '/'] then
      let stop := lineEndF (input.length + 1) input (pos + 3)
      match parsePrefixMetaF fuel input stop with
      | .ok (comments, properties) pos2 =>
          .ok (⟨⟨pos, stop - pos⟩,
                String.mk ((input.drop (pos + 3)).take (stop - (pos + 3)))⟩ :: comments,
               properties) pos2
      | r => r
    else
      match parseProperty input pos with
      | .ok property pos1 =>
        match parsePrefixMetaF fuel input pos1 with
        | .ok (comments, properties) pos2 => .ok (comments, property :: properties) pos2
        | r => r
      | .miss _ => .ok ([], []) pos
      | .fatal e p => .fatal e p
      | .panicked m => .panicked m

/-- `parse_prefix` at full fuel. -/
def parsePrefixMeta (input : List Char) (pos : Nat) :
    PResult (List Comment × List Property) :=
  parsePrefixMetaF (input.length + 1) input pos

/-- Modelled from the spec: the type parser (the `field` module is not under
`src/`) — primitives, `[T]` lists, `[T; 0xN]` arrays, and `Data` identifier
references; missing closers are fatal with the matching `TypeKind`. -/
def parseTyF : Nat → List Char → Nat → PResult Ty
  | 0, _, _ => .panicked "fuel"
  | fuel + 1, input, pos =>
    let prim : List (String × Ty) :=
      [("bool", .bool), ("string", .string), ("byte", .byte), ("ubyte", .ubyte),
       ("short", .short), ("ushort", .ushort), ("int", .int), ("uint", .uint),
       ("long", .long), ("ulong", .ulong), ("float", .float), ("double", .double)]
    match prim.findSome? (fun p =>
        match ensureKeyword p.1 input pos with
        | .ok _ stop => some (p.2, stop)
        | _ => none) with
    | some (ty, stop) => .ok ty stop
    | none =>
      match ensureChar '[' input pos with
      | .ok start pos1 =>
        let pos1 := skipWs input pos1
        match (parseTyF fuel input pos1).fatalize (.tyErr .dataExpected) pos1 with
        | .ok component pos2 =>
          let pos2 := skipWs input pos2
          match ensureChar ';' input pos2 with
          | .ok _ pos3 =>
            let pos3 := skipWs input pos3
            match (parseHexUint input pos3).fatalize (.tyErr .uintExpected) pos3 with
            | .ok n pos4 =>
              let pos4 := skipWs input pos4
              match (ensureChar ']' input pos4).fatalize (.tyErr .squareBracketEnd) pos4 with
              | .ok stop pos5 => .ok (.arrayOf component n (start.extendToInclusive stop)) pos5
              | .miss e => .miss e
              | .fatal e p => .fatal e p
              | .panicked m => .panicked m
            | .miss e => .miss e
            | .fatal e p => .fatal e p
            | .panicked m => .panicked m
          | _ =>
            match (ensureChar ']' input pos2).fatalize (.tyErr .squareBracketEnd) pos2 with
            | .ok stop pos3 => .ok (.listOf component (start.extendToInclusive stop)) pos3
            | .miss e => .miss e
            | .fatal e p => .fatal e p
            | .panicked m => .panicked m
        | .miss e => .miss e
        | .fatal e p => .fatal e p
        | .panicked m => .panicked m
      | _ =>
        match parseIdent input pos with
        | .ok ident stop => .ok (.data ident) stop
        | .miss _ => .miss (.tyErr .dataExpected)
        | .fatal e p => .fatal e p
        | .panicked m => .panicked m

/-- The type parser at full fuel. -/
def parseTy (input : List Char) (pos : Nat) : PResult Ty :=
  parseTyF (input.length + 1) input pos

/-- Modelled from the spec: the named-field parser (the `field` module is not
under `src/`) — `prefix ident ':' type`; a missing `:` is fatal with
`NamedFieldKind::SemiColons`, a missing type with `NamedFieldKind::Type`. -/
def parseNamedField (input : List Char) (pos : Nat) : PResult NamedField :=
  match parsePrefixMeta input pos with
  | .ok (comments, properties) pos =>
    match parseIdent input pos with
    | .ok ident pos1 =>
      let pos1 := skipWs input pos1
      match (ensureChar ':' input pos1).fatalize (.namedField .semiColons) pos1 with
      | .ok _ pos2 =>
        let pos2 := skipWs input pos2
        match (parseTy input pos2).fatalize (.namedField .typeExpected) pos2 with
        | .ok ty pos3 => .ok ⟨comments, properties, ident, ty⟩ pos3
        | .miss e => .miss e
        | .fatal e p => .fatal e p
        | .panicked m => .panicked m
      | .miss e => .miss e
      | .fatal e p => .fatal e p
      | .panicked m => .panicked m
    | .miss e => .miss e
    | .fatal e p => .fatal e p
    | .panicked m => .panicked m
  | .miss e => .miss e
  | .fatal e p => .fatal e p
  | .panicked m => .panicked m

/-- Named-field list loop: `named-field (',' named-field)*`. -/
def parseNamedListF : Nat → List Char → Nat → PResult (List NamedField)
  | 0, _, _ => .panicked "fuel"
  | fuel + 1, input, pos =>
    match parseNamedField input (skipWs input pos) with
    | .ok field pos =>
      let pos := skipWs input pos
      match ensureChar ',' input pos with
      | .ok _ pos =>
        match parseNamedListF fuel input pos with
        | .ok fields pos => .ok (field :: fields) pos
        | r => r
      | _ => .ok [field] pos
    | .miss _ => .ok [] pos
    | .fatal e p => .fatal e p
    | .panicked m => .panicked m

/-- Unnamed-field (tuple type) list loop: `type (',' type)*`. -/
def parseUnnamedListF : Nat → List Char → Nat → PResult (List UnnamedField)
  | 0, _, _ => .panicked "fuel"
  | fuel + 1, input, pos =>
    match parseTy input (skipWs input pos) with
    | .ok ty pos =>
      let pos := skipWs input pos
      match ensureChar ',' input pos with
      | .ok _ pos =>
        match parseUnnamedListF fuel input pos with
        | .ok fields pos => .ok (⟨ty⟩ :: fields) pos
        | r => r
      | _ => .ok [⟨ty⟩] pos
    | .miss _ => .ok [] pos
    | .fatal e p => .fatal e p
    | .panicked m => .panicked m

/-- Modelled from the spec: the `Fields` parser (the `field` module is not
under `src/`) — `'{' named-field,* '}'` or `'(' type,* ')'` or unit (no
consumption); a missing closer is fatal with `FieldsKind::EndTag`. -/
def parseFields (input : List Char) (pos : Nat) : PResult Fields :=
  match ensureChar '{' input pos with
  | .ok _ pos1 =>
    match parseNamedListF (input.length + 1) input pos1 with
    | .ok fields pos2 =>
      let pos2 := skipWs input pos2
      match (ensureChar '}' input pos2).fatalize (.fields (.endTag '}')) pos2 with
      | .ok _ pos3 => .ok (.named fields) pos3
      | .miss e => .miss e
      | .fatal e p => .fatal e p
      | .panicked m => .panicked m
    | .miss e => .miss e
    | .fatal e p => .fatal e p
    | .panicked m => .panicked m
  | _ =>
    match ensureChar '(' input pos with
    | .ok _ pos1 =>
      match parseUnnamedListF (input.length + 1) input pos1 with
      | .ok fields pos2 =>
        let pos2 := skipWs input pos2
        match (ensureChar ')' input pos2).fatalize (.fields (.endTag ')')) pos2 with
        | .ok _ pos3 => .ok (.unnamed fields) pos3
        | .miss e => .miss e
        | .fatal e p => .fatal e p
        | .panicked m => .panicked m
      | .miss e => .miss e
      | .fatal e p => .fatal e p
      | .panicked m => .panicked m
    | _ => .ok .unit pos

/-- `parse_node_body` (`src/lang/parser/node.rs`): the span starts at the
current position (the identifier) and is extended to the position right
after the fields via `extend_to`. -/
def parseNodeBody (input : List Char) (pos : Nat) : PResult Node :=
  let start := ctxSpan input pos
  match parseIdent input pos with
  | .ok ident pos1 =>
    let pos1 := skipWs input pos1
    let mixinStep : PResult (Option Ident × Nat) :=
      match ensureKeyword "mixin" input pos1 with
      | .ok _ pos2 =>
        let pos2 := skipWs input pos2
        match (parseIdent input pos2).fatalize (.node .mixinIdent) pos2 with
        | .ok mixinIdent pos3 => .ok (some mixinIdent, skipWs input pos3) pos3
        | .miss e => .miss e
        | .fatal e p => .fatal e p
        | .panicked m => .panicked m
      | _ => .ok (none, pos1) pos1
    match mixinStep with
    | .ok (mixinRef, pos2) _ =>
      match (parseFields input pos2).fatalize (.node .fieldsExpected) pos2 with
      | .ok fields pos3 =>
        let stop := ctxSpan input pos3
        .ok { span := start.extendTo stop, comments := [], mixin := mixinRef,
              properties := [], ident := ident, fields := fields } pos3
      | .miss e => .miss e
      | .fatal e p => .fatal e p
      | .panicked m => .panicked m
    | .miss e => .miss e
    | .fatal e p => .fatal e p
    | .panicked m => .panicked m
  | .miss e => .miss e
  | .fatal e p => .fatal e p
  | .panicked m => .panicked m

/-- `parse_node` (`src/lang/parser/node.rs`): prefix, declaration keyword,
node body, then a terminating `;` (fatal with `NodeKind::End`) exactly when
the fields are of tuple or unit shape. -/
def parseNode (input : List Char) (pos : Nat) : PResult Stat :=
  match parsePrefixMeta input pos with
  | .ok (comments, properties) pos0 =>
    let kwStep : Option (String × Nat) :=
      match ensureKeyword "el" input pos0 with
      | .ok _ p => some ("el", p)
      | _ =>
        match ensureKeyword "leaf" input pos0 with
        | .ok _ p => some ("leaf", p)
        | _ =>
          match ensureKeyword "attr" input pos0 with
          | .ok _ p => some ("attr", p)
          | _ =>
            match ensureKeyword "data" input pos0 with
            | .ok _ p => some ("data", p)
            | _ =>
              match ensureKeyword "mixin" input pos0 with
              | .ok _ p => some ("mixin", p)
              | _ => none
    match kwStep with
    | some (kw, pos1) =>
      let pos1 := skipWs input pos1
      match parseNodeBody input pos1 with
      | .ok node pos2 =>
        let node := { node with comments := comments, properties := properties }
        let endStep : PResult Nat :=
          if node.fields.isTuple then
            match (ensureChar ';' input pos2).fatalize (.node .endKw) pos2 with
            | .ok _ pos3 => .ok pos3 pos3
            | .miss e => .miss e
            | .fatal e p => .fatal e p
            | .panicked m => .panicked m
          else .ok pos2 pos2
        match endStep with
        | .ok pos3 _ =>
          match kw with
          | "el" => .ok (.element node) pos3
          | "leaf" => .ok (.leaf node) pos3
          | "attr" => .ok (.attr node) pos3
          | "data" => .ok (.data node) pos3
          | "mixin" => .ok (.mixin node) pos3
          | _ => .panicked "inner errro."
        | .miss e => .miss e
        | .fatal e p => .fatal e p
        | .panicked m => .panicked m
      | .miss e => .miss e
      | .fatal e p => .fatal e p
      | .panicked m => .panicked m
    | none => .miss (.parserc (.keyword "el"))
  | .miss e => .miss e
  | .fatal e p => .fatal e p
  | .panicked m => .panicked m

/-- The enum variant loop: prefix, node body, separated by `,`; a miss of the
node body ends the loop (at the position after the consumed prefix). -/
def parseEnumVariantsF : Nat → List Char → Nat → PResult (List Node)
  | 0, _, _ => .panicked "fuel"
  | fuel + 1, input, pos =>
    match parsePrefixMeta input pos with
    | .ok (comments, properties) pos1 =>
      match parseNodeBody input pos1 with
      | .ok field pos2 =>
        let field := { field with comments := comments, properties := properties }
        let pos2 := skipWs input pos2
        let pos2 := skipWs input pos2
        match ensureChar ',' input pos2 with
        | .ok _ pos3 =>
          match parseEnumVariantsF fuel input (skipWs input pos3) with
          | .ok fields pos4 => .ok (field :: fields) pos4
          | r => r
        | _ => .ok [field] pos2
      | .miss _ => .ok [] pos1
      | .fatal e p => .fatal e p
      | .panicked m => .panicked m
    | .miss e => .miss e
    | .fatal e p => .fatal e p
    | .panicked m => .panicked m

/-- `FromSrc for Enum` (`src/lang/parser/node.rs`): the span starts at the
statement's entry position (before the prefix) and extends through the
closing `}` inclusive. -/
def parseEnum (input : List Char) (pos : Nat) : PResult EnumDecl :=
  let start := ctxSpan input pos
  match parsePrefixMeta input pos with
  | .ok (comments, properties) pos0 =>
    match ensureKeyword "enum" input pos0 with
    | .ok _ pos1 =>
      let pos1 := skipWs input pos1
      match (parseIdent input pos1).fatalize (.enumErr .identExpected) pos1 with
      | .ok ident pos2 =>
        let pos2 := skipWs input pos2
        match (ensureChar '{' input pos2).fatalize (.enumErr .bodyStart) pos2 with
        | .ok _ pos3 =>
          match parseEnumVariantsF (input.length + 1) input pos3 with
          | .ok fields pos4 =>
            match (ensureChar '}' input pos4).fatalize (.enumErr .bodyEnd) pos4 with
            | .ok stop pos5 =>
                .ok { span := start.extendToInclusive stop, comments := comments,
                      properties := properties, ident := ident, fields := fields } pos5
            | .miss e => .miss e
            | .fatal e p => .fatal e p
            | .panicked m => .panicked m
          | .miss e => .miss e
          | .fatal e p => .fatal e p
          | .panicked m => .panicked m
        | .miss e => .miss e
        | .fatal e p => .fatal e p
        | .panicked m => .panicked m
      | .miss e => .miss e
      | .fatal e p => .fatal e p
      | .panicked m => .panicked m
    | _ => .miss (.parserc (.keyword "enum"))
  | .miss e => .miss e
  | .fatal e p => .fatal e p
  | .panicked m => .panicked m

/-- The identifier loop of `parse_tuple_idents`. -/
def parseTupleIdentListF : Nat → List Char → Nat → PResult (List Ident)
  | 0, _, _ => .panicked "fuel"
  | fuel + 1, input, pos =>
    match parseIdent input pos with
    | .ok ident pos1 =>
      let pos1 := skipWs input pos1
      match ensureChar ',' input pos1 with
      | .ok _ pos2 =>
        match parseTupleIdentListF fuel input (skipWs input pos2) with
        | .ok idents pos3 => .ok (ident :: idents) pos3
        | r => r
      | _ => .ok [ident] pos1
    | .miss _ => .ok [] pos
    | .fatal e p => .fatal e p
    | .panicked m => .panicked m

/-- `parse_tuple_idents` (`src/lang/parser/link.rs`): `'(' ident,* ')'`;
both delimiters are fatal with the matching `TupleKind`. -/
def parseTupleIdents (input : List Char) (pos : Nat) : PResult (List Ident) :=
  match (ensureChar '(' input pos).fatalize (.tuple .bodyStart) pos with
  | .ok _ pos1 =>
    match parseTupleIdentListF (input.length + 1) input (skipWs input pos1) with
    | .ok children pos2 =>
      match (ensureChar ')' input pos2).fatalize (.tuple .bodyEnd) pos2 with
      | .ok _ pos3 => .ok children pos3
      | .miss e => .miss e
      | .fatal e p => .fatal e p
      | .panicked m => .panicked m
    | .miss e => .miss e
    | .fatal e p => .fatal e p
    | .panicked m => .panicked m
  | .miss e => .miss e
  | .fatal e p => .fatal e p
  | .panicked m => .panicked m

/-- `Ident::into_parser().map(|v| vec![v]).or(parse_tuple_idents)`: a single
identifier or a parenthesised identifier tuple. -/
def parseIdentOrTuple (input : List Char) (pos : Nat) : PResult (List Ident) :=
  match parseIdent input pos with
  | .ok ident pos1 => .ok [ident] pos1
  | .miss _ => parseTupleIdents input pos
  | .fatal e p => .fatal e p
  | .panicked m => .panicked m

/-- `FromSrc for Group` (`src/lang/parser/link.rs`): the statement span runs
from the `group` keyword through the terminating `;` inclusive. -/
def parseGroup (input : List Char) (pos : Nat) : PResult Group :=
  match parsePrefixMeta input pos with
  | .ok (comments, properties) pos0 =>
    let pos0 := skipWs input pos0
    match ensureKeyword "group" input pos0 with
    | .ok start pos1 =>
      let pos1 := skipWs input pos1
      match parseIdent input pos1 with
      | .ok ident pos2 =>
        let pos2 := skipWs input pos2
        match (ensureKeyword ":=" input pos2).fatalize (.group .assign) pos2 with
        | .ok _ pos3 =>
          let pos3 := skipWs input pos3
          match parseTupleIdents input pos3 with
          | .ok children pos4 =>
            let pos4 := skipWs input pos4
            match (ensureChar ';' input pos4).fatalize (.group .endKw) pos4 with
            | .ok stop pos5 =>
                .ok { span := start.extendToInclusive stop, comments := comments,
                      properties := properties, ident := ident,
                      children := children } pos5
            | .miss e => .miss e
            | .fatal e p => .fatal e p
            | .panicked m => .panicked m
          | .miss e => .miss e
          | .fatal e p => .fatal e p
          | .panicked m => .panicked m
        | .miss e => .miss e
        | .fatal e p => .fatal e p
        | .panicked m => .panicked m
      | .miss e => .miss e
      | .fatal e p => .fatal e p
      | .panicked m => .panicked m
    | _ => .miss (.parserc (.keyword "group"))
  | .miss e => .miss e
  | .fatal e p => .fatal e p
  | .panicked m => .panicked m

/-- `FromSrc for ApplyTo` (`src/lang/parser/link.rs`): the statement span
runs from the `apply` keyword through the terminating `;` inclusive. -/
def parseApplyTo (input : List Char) (pos : Nat) : PResult ApplyTo :=
  match parsePrefixMeta input pos with
  | .ok (comments, properties) pos0 =>
    let pos0 := skipWs input pos0
    match ensureKeyword "apply" input pos0 with
    | .ok start pos1 =>
      let pos1 := skipWs input pos1
      match parseIdentOrTuple input pos1 with
      | .ok fromList pos2 =>
        let pos2 := skipWs input pos2
        match (ensureKeyword "to" input pos2).fatalize (.applyTo .toKw) pos2 with
        | .ok _ pos3 =>
          let pos3 := skipWs input pos3
          match (parseIdentOrTuple input pos3).fatalize (.applyTo .target) pos3 with
          | .ok toList pos4 =>
            let pos4 := skipWs input pos4
            match (ensureChar ';' input pos4).fatalize (.applyTo .endKw) pos4 with
            | .ok stop pos5 =>
                .ok { span := start.extendToInclusive stop, comments := comments,
                      properties := properties, from_ := fromList,
                      to_ := toList } pos5
            | .miss e => .miss e
            | .fatal e p => .fatal e p
            | .panicked m => .panicked m
          | .miss e => .miss e
          | .fatal e p => .fatal e p
          | .panicked m => .panicked m
        | .miss e => .miss e
        | .fatal e p => .fatal e p
        | .panicked m => .panicked m
      | .miss e => .miss e
      | .fatal e p => .fatal e p
      | .panicked m => .panicked m
    | _ => .miss (.parserc (.keyword "apply"))
  | .miss e => .miss e
  | .fatal e p => .fatal e p
  | .panicked m => .panicked m

/-- `FromSrc for ChildrenOf` (`src/lang/parser/link.rs`): the statement span
runs from the `children` keyword through the terminating `;` inclusive.  The
`of`-keyword expectation is (mis)labelled `ChildrenOfKind::From`, exactly as
in the source. -/
def parseChildrenOf (input : List Char) (pos : Nat) : PResult ChildrenOf :=
  match parsePrefixMeta input pos with
  | .ok (comments, properties) pos0 =>
    let pos0 := skipWs input pos0
    match ensureKeyword "children" input pos0 with
    | .ok start pos1 =>
      let pos1 := skipWs input pos1
      match (parseIdentOrTuple input pos1).fatalize (.childrenOf .fromKw) pos1 with
      | .ok fromList pos2 =>
        let pos2 := skipWs input pos2
        match (ensureKeyword "of" input pos2).fatalize (.childrenOf .fromKw) pos2 with
        | .ok _ pos3 =>
          let pos3 := skipWs input pos3
          match (parseIdentOrTuple input pos3).fatalize (.childrenOf .toKw) pos3 with
          | .ok toList pos4 =>
            let pos4 := skipWs input pos4
            match (ensureChar ';' input pos4).fatalize (.childrenOf .endKw) pos4 with
            | .ok stop pos5 =>
                .ok { span := start.extendToInclusive stop, comments := comments,
                      properties := properties, from_ := fromList,
                      to_ := toList } pos5
            | .miss e => .miss e
            | .fatal e p => .fatal e p
            | .panicked m => .panicked m
          | .miss e => .miss e
          | .fatal e p => .fatal e p
          | .panicked m => .panicked m
        | .miss e => .miss e
        | .fatal e p => .fatal e p
        | .panicked m => .panicked m
      | .miss e => .miss e
      | .fatal e p => .fatal e p
      | .panicked m => .panicked m
    | _ => .miss (.parserc (.keyword "children"))
  | .miss e => .miss e
  | .fatal e p => .fatal e p
  | .panicked m => .panicked m

/-- `FromSrc for Stat` (`src/lang/parser/stat.rs`): try each alternative in
order (a miss backtracks to the entry position); if none matches, skip
whitespace and — exactly as the source's `assert_eq!` — panic when any
non-whitespace input remains, otherwise miss with `ParseError::End`. -/
def parseStat (input : List Char) (pos : Nat) : PResult Stat :=
  match parseEnum input pos with
  | .ok e pos1 => .ok (.enum e) pos1
  | .fatal e p => .fatal e p
  | .panicked m => .panicked m
  | .miss _ =>
    match parseNode input pos with
    | .ok s pos1 => .ok s pos1
    | .fatal e p => .fatal e p
    | .panicked m => .panicked m
    | .miss _ =>
      match parseGroup input pos with
      | .ok g pos1 => .ok (.group g) pos1
      | .fatal e p => .fatal e p
      | .panicked m => .panicked m
      | .miss _ =>
        match parseApplyTo input pos with
        | .ok a pos1 => .ok (.applyTo a) pos1
        | .fatal e p => .fatal e p
        | .panicked m => .panicked m
        | .miss _ =>
          match parseChildrenOf input pos with
          | .ok c pos1 => .ok (.childrenOf c) pos1
          | .fatal e p => .fatal e p
          | .panicked m => .panicked m
          | .miss _ =>
            let pos1 := skipWs input pos
            if input.length - pos1 = 0 then .miss .endOfInput
            else .panicked "Unparsed codes"

/-- The statement loop of `parse` (`src/lang/parser/mod.rs`). -/
def parseProgramF : Nat → List Char → Nat → PResult (List Stat)
  | 0, _, _ => .panicked "fuel"
  | fuel + 1, input, pos =>
    match parseStat input pos with
    | .ok stat pos1 =>
      match parseProgramF fuel input pos1 with
      | .ok stats pos2 => .ok (stat :: stats) pos2
      | r => r
    | .miss _ => .ok [] pos
    | .fatal e p => .fatal e p
    | .panicked m => .panicked m

/-- `parse`: run the statement loop over a source string from position 0. -/
def parseProgram (src : String) : PResult (List Stat) :=
  parseProgramF (src.toList.length + 1) src.toList 0

/-! ## Serde generator (`src/lang/rustgen/serde/{mod,ser}.rs`) -/

/-- Uppercase the first character of a word and lowercase the rest
(word shaping used by the lower-camel-case transform). -/
def capWord : List Char → List Char
  | [] => []
  | c :: rest => c.toUpper :: rest.map Char.toLower

/-- Lowercase a whole word. -/
def lowWord (w : List Char) : List Char := w.map Char.toLower

/-- Split an identifier into words at underscores and lower-to-upper case
transitions. -/
def splitWordsF : Nat → List Char → List Char → List (List Char)
  | 0, acc, _ => [acc.reverse]
  | fuel + 1, acc, l =>
    match l with
    | [] => [acc.reverse]
    | c :: rest =>
      if c = '_' then acc.reverse :: splitWordsF fuel [] rest
      else if c.isUpper ∧ acc ≠ [] then acc.reverse :: splitWordsF fuel [c] rest
      else splitWordsF fuel (c :: acc) rest

/-- Modelled from the spec: the lower-camel-case transform (the external
`heck::ToLowerCamelCase` implementation): split into words, lowercase the
first word, capitalise the following ones. -/
def toLowerCamelCase (s : String) : String :=
  match (splitWordsF (s.toList.length + 1) [] s.toList).filter (· ≠ []) with
  | [] => ""
  | w :: ws => String.mk (lowWord w ++ (ws.map capWord).flatten)

/-- Modelled from the spec: the `rename` property accessor (the `mapping`
helpers are not under `src/`) — the value of the first `rename` call with a
single literal-string parameter. -/
def renameOf (properties : List Property) : Option String :=
  (properties.flatMap (·.calls)).findSome? fun call =>
    if call.target.2 = "rename" then
      match call.params with
      | [.str s] => some s
      | _ => none
    else none

/-- `SerdeDisplayName for Node`: the `rename` value if present, otherwise
the lower-camel-case transform of the source identifier. -/
def nodeDisplayName (n : Node) : String :=
  match renameOf n.properties with
  | some v => v
  | none => toLowerCamelCase n.ident.2

/-- `SerdeDisplayName for Enum`. -/
def enumDisplayName (e : EnumDecl) : String :=
  match renameOf e.properties with
  | some v => v
  | none => toLowerCamelCase e.ident.2

/-- `SerdeDisplayName for Field` restricted to a named field: `rename` if
present, otherwise the lower-camel-case transform of the field identifier. -/
def fieldDisplayName (f : NamedField) : String :=
  match renameOf f.properties with
  | some v => v
  | none => toLowerCamelCase f.ident.2

/-- One generated `serializer.serialize_field(idx, name, value)` call:
the field index and the optional name argument. -/
structure SerFieldCall where
  idx : Nat
  name : Option String
deriving DecidableEq

/-- The `serialize_field` calls generated by `SerializeCodeGen for Node`
(`ser.rs` lines 33–49): the name argument is the field's display name for a
named field and `None` for a positional one. -/
def nodeSerFieldCalls (f : Fields) : List SerFieldCall :=
  match f with
  | .unit => []
  | .named fs => fs.enum.map fun p => ⟨p.1, some (fieldDisplayName p.2)⟩
  | .unnamed fs => fs.enum.map fun p => ⟨p.1, none⟩

/-- The `serialize_field` calls generated per enum variant by
`SerializeCodeGen for Enum` (`ser.rs` lines 92–106): the name argument is
`Some(ident.to_string())` — the raw source identifier — for a named field
and `None` for a positional one. -/
def variantSerFieldCalls (f : Fields) : List SerFieldCall :=
  match f with
  | .unit => []
  | .named fs => fs.enum.map fun p => ⟨p.1, some p.2.ident.2⟩
  | .unnamed fs => fs.enum.map fun p => ⟨p.1, none⟩

/-- The generated `Serialize` implementation shape for a node declaration:
`serializer.serialize_<kind>(type_id, display_name, field_count)` followed by
the field calls. -/
structure NodeSerImpl where
  serializeFn : String
  typeId : Nat
  name : String
  fieldCount : Nat
  fieldCalls : List SerFieldCall
deriving DecidableEq

/-- `SerializeCodeGen for Node`. -/
def genSerializeNode (serializeFn : String) (typeId : Nat) (n : Node) : NodeSerImpl :=
  { serializeFn := serializeFn, typeId := typeId, name := nodeDisplayName n,
    fieldCount := (nodeSerFieldCalls n.fields).length,
    fieldCalls := nodeSerFieldCalls n.fields }

/-- The generated match arm for one enum variant:
`serialize_enum(type_id, enum_name, variant, variant_idx, field_count)`
followed by the per-field calls. -/
structure VariantSerImpl where
  typeId : Nat
  enumName : String
  variantName : String
  variantIdx : Nat
  fieldCount : Nat
  fieldCalls : List SerFieldCall
deriving DecidableEq

/-- `SerializeCodeGen for Enum`. -/
def genSerializeEnum (typeId : Nat) (e : EnumDecl) : List VariantSerImpl :=
  e.fields.enum.map fun p =>
    { typeId := typeId, enumName := enumDisplayName e,
      variantName := nodeDisplayName p.2, variantIdx := p.1,
      fieldCount := (variantSerFieldCalls p.2.fields).length,
      fieldCalls := variantSerFieldCalls p.2.fields }

/-- Generic association-list lookup (`HashMap::get`). -/
def lookupG {α : Type} (k : String) : List (String × α) → Option α
  | [] => none
  | (k', v) :: rest => if k' = k then some v else lookupG k rest

/-- Sorted insertion of a string (`Vec::sort` is modelled as an insertion
sort; only the resulting order matters). -/
def insertSorted (x : String) : List String → List String
  | [] => [x]
  | y :: ys => if x ≤ y then x :: y :: ys else y :: insertSorted x ys

/-- Lexicographic sort of a string list. -/
def sortStrings (l : List String) : List String :=
  l.foldr insertSorted []

/-- One emitted clause of the `visit_opcode_with_attrs` routing match: the
`to` key it was generated from (clauses appear in sorted key order), the
target's display name, the sorted attribute set iterated, and the emitted
match arms `(pattern, inserted-attr-display-name)`. -/
structure AttrClause where
  key : String
  ty : String
  attrs : List String
  arms : List (String × String)
deriving DecidableEq

/-- The arms contributed by one attribute: its display name as a pattern,
then one arm per field name from `attr_fields`; a missing display name is
the generator's `.expect` panic. -/
def armsForAttr (attrFields : List (String × List String))
    (displayNames : List (String × String)) (attr : String) :
    Option (List (String × String)) :=
  match lookupG attr displayNames with
  | some name =>
    some ((name, name) ::
      (match lookupG attr attrFields with
       | some fields => fields.map fun f => (f, name)
       | none => []))
  | none => none

/-- The clause generated for one `to` key. -/
def clauseFor (applyAttrsOf : String → List String)
    (attrFields : List (String × List String))
    (displayNames : List (String × String)) (toKey : String) : Option AttrClause :=
  match lookupG toKey displayNames with
  | some ty =>
    let attrs := sortStrings (applyAttrsOf toKey)
    match attrs.mapM (armsForAttr attrFields displayNames) with
    | some armLists => some ⟨toKey, ty, attrs, armLists.flatten⟩
    | none => none
  | none => none

/-- `CodeGen::gen_fields_to_attrs` (`src/lang/rustgen/serde/mod.rs` lines
169–231): sort the `apply_attrs` keys, and per key sort the attribute set,
emitting the nested match arms; `.expect` failures are panics (`none`).  The
`apply_attrs` map is passed as its key list (in hash-map iteration order)
plus a lookup function; `attr_fields` and `display_names` iteration order is
never observed, so they stay association lists. -/
def genFieldsToAttrs (keys : List String) (applyAttrsOf : String → List String)
    (attrFields : List (String × List String))
    (displayNames : List (String × String)) : Option (List AttrClause) :=
  (sortStrings keys).mapM (clauseFor applyAttrsOf attrFields displayNames)

/-! ## Runtime `bool` deserializer (`src/rt/serde/de.rs` lines 566–594) -/

/-- `rt::serde::de::Error` (payload shapes as in the source; the two parse
errors carry the host error's message text). -/
inductive DeError where
  | parseIntError (msg : String)
  | parseFloatError (msg : String)
  | outOfRange (got expected : Nat)
  | unknownType (typeId : Nat)
  | unknownTypeName (name : String)
  | unexpectKind (kind : String)
  | unknownVariant (enumName variant : String)
  | unknownVariantIndex (enumName : String) (index : Nat)
deriving DecidableEq

/-- `Visitor::visit_string` of `Deserialize for bool`:
`Ok(if value == "1" { true } else { false })` — never an error. -/
def boolVisitString (value : String) : Except DeError Bool :=
  .ok (if value == "1" then true else false)

/-- `Visitor::visit_bool` of `Deserialize for bool`: `Ok(value)`. -/
def boolVisitBool (value : Bool) : Except DeError Bool :=
  .ok value

/-! ## Sortedness and permutation-invariance of the attribute routing table -/

/-! ## Span facts for the statement parsers -/

/-! ## Concrete inputs for the claims -/

set_option maxRecDepth 10000

/-- A zero span for hand-built IR values. -/
def spz : Span := ⟨0, 0⟩

/-- An `attr X` declaration carrying a `rename` property call with zero
parameters (arity violation). -/
def c1Node : Node :=
  { ident := (⟨0, 1⟩, "X"), mixin := none, fields := .unit,
    properties := [⟨spz, [⟨(spz, "rename"), []⟩]⟩], comments := [], span := spz }

/-- The statement sequence exercising the `Rename` diagnostic. -/
def c1Stat : Stat := .attr c1Node

/-- An `el Y mixin Missing` declaration whose mixin target is undeclared. -/
def c2Node : Node :=
  { ident := (⟨3, 1⟩, "Y"), mixin := some (⟨11, 7⟩, "Missing"), fields := .unit,
    properties := [], comments := [], span := spz }

/-- The statement sequence exercising the unresolved-mixin path. -/
def c2Stat : Stat := .element c2Node

/-- The mixin-merge scenario source (§8 B), literally: it ends in a stray
`;` after the named-fields body of `Rect` (a named-fields node takes no
terminating `;`). -/
def c3src : String :=
  "mixin Common \x7b id: string \x7d  el Rect mixin Common \x7b w: uint, h: uint \x7d;"

/-- The mixin-merge scenario source without the stray trailing `;`: a
well-formed two-statement program. -/
def c3srcOk : String :=
  "mixin Common \x7b id: string \x7d  el Rect mixin Common \x7b w: uint, h: uint \x7d"

/-- The parsed `mixin Common` declaration of `c3src`. -/
def c3Common : Node :=
  { ident := (⟨6, 6⟩, "Common"), mixin := none,
    fields := .named [⟨[], [], (⟨15, 2⟩, "id"), .string⟩],
    properties := [], comments := [], span := ⟨6, 21⟩ }

/-- The parsed `el Rect mixin Common` declaration of `c3src`. -/
def c3Rect : Node :=
  { ident := (⟨32, 4⟩, "Rect"), mixin := some (⟨43, 6⟩, "Common"),
    fields := .named [⟨[], [], (⟨52, 1⟩, "w"), .uint⟩, ⟨[], [], (⟨61, 1⟩, "h"), .uint⟩],
    properties := [], comments := [], span := ⟨32, 38⟩ }

/-- The `Rect` node after analysis: mixin slot cleared, the mixin's `id`
field merged in front of `w` and `h`. -/
def c3RectOut : Node :=
  { ident := (⟨32, 4⟩, "Rect"), mixin := none,
    fields := .named [⟨[], [], (⟨15, 2⟩, "id"), .string⟩,
                      ⟨[], [], (⟨52, 1⟩, "w"), .uint⟩, ⟨[], [], (⟨61, 1⟩, "h"), .uint⟩],
    properties := [], comments := [], span := ⟨32, 38⟩ }

/-- The node produced for `el A();`: span starts at the identifier (offset
3), ends after the fields (offset 6), excluding the `;`. -/
def c5Node : Node :=
  { ident := (⟨3, 1⟩, "A"), mixin := none, fields := .unnamed [],
    properties := [], comments := [], span := ⟨3, 3⟩ }

/-- The enum produced for `" enum E {}"`: span starts at offset 0 (before
the leading space), not at the `enum` keyword (offset 1). -/
def c5Enum : EnumDecl :=
  { span := ⟨0, 10⟩, comments := [], properties := [], ident := (⟨6, 1⟩, "E"),
    fields := [] }

/-- The group produced for `group G := (A);`. -/
def c5Group : Group :=
  { span := ⟨0, 15⟩, comments := [], properties := [], ident := (⟨6, 1⟩, "G"),
    children := [(⟨12, 1⟩, "A")] }

/-- An enum variant field whose source identifier differs from its display
name. -/
def c4Field : NamedField := ⟨[], [], (⟨0, 8⟩, "my_value"), .string⟩

/-- The variant `A { my_value: string }`. -/
def c4Variant : Node := ⟨(⟨0, 1⟩, "A"), none, .named [c4Field], [], [], spz⟩

/-- The enum `Hello { A { my_value: string } }`. -/
def c4Enum : EnumDecl := ⟨spz, [], [], (⟨0, 5⟩, "Hello"), [c4Variant]⟩

/-- The group-expansion scenario source (§8 C). -/
def c8src : String :=
  "el A\x7b\x7d el B\x7b\x7d group Shapes := (A,B); attr Fill(string); apply Fill to Shapes;"

/-- The parsed statement sequence of `c8src`. -/
def c8Stats : List Stat :=
  match parseProgram c8src with
  | .ok l _ => l
  | _ => []

/-- The analyzed (rewritten) statement sequence of `c8src`. -/
def c8Out : List Stat :=
  match semanticAnalyze c8Stats with
  | some (_, out, _) => out
  | none => []

/-- The surviving `ApplyTo` of the scenario: `to` expanded to `[A, B]`. -/
def c8ApplyOut : ApplyTo :=
  { span := ⟨56, 21⟩, comments := [], properties := [],
    from_ := [(⟨62, 4⟩, "Fill")], to_ := [(⟨31, 1⟩, "A"), (⟨33, 1⟩, "B")] }

/-- First permuted key-iteration order for the routing-table witness. -/
def c9ao1 : String → List String := fun k =>
  if k = "Rect" then ["Stroke", "Fill"] else if k = "Circle" then ["Fill"] else []

/-- Second permuted key-iteration order for the routing-table witness. -/
def c9ao2 : String → List String := fun k =>
  if k = "Rect" then ["Fill", "Stroke"] else if k = "Circle" then ["Fill"] else []

/-- `attr_fields` for the routing-table witness. -/
def c9af : List (String × List String) := [("Fill", ["paint"]), ("Stroke", ["width"])]

/-- `display_names` for the routing-table witness. -/
def c9dn : List (String × String) :=
  [("Rect", "rect"), ("Circle", "circle"), ("Fill", "fill"), ("Stroke", "stroke")]

/-! ## The claims -/

/-- The variant implementation generated for `c4Enum`. -/
def c4Impl : VariantSerImpl := ⟨0, "hello", "a", 0, 1, [⟨0, some "my_value"⟩]⟩

theorem lookupA_mem {k : String} {v : Span × Nat}
    {l : List (String × Span × Nat)} (h : lookupA k l = some v) : (k, v) ∈ l := by
  induction l with
  | nil => simp [lookupA] at h
  | cons hd tl ih =>
    obtain ⟨k', v'⟩ := hd
    simp only [lookupA] at h
    split at h
    · next heq => cases h; exact (heq ▸ List.mem_cons_self _ _)
    · exact List.mem_cons_of_mem _ (ih h)

theorem eraseA_subset {k : String} {x : String × Span × Nat}
    {l : List (String × Span × Nat)} (h : x ∈ eraseA k l) : x ∈ l := by
  induction l with
  | nil => simp [eraseA] at h
  | cons hd tl ih =>
    obtain ⟨k', v'⟩ := hd
    simp only [eraseA] at h
    split at h
    · exact List.mem_cons_of_mem _ (ih h)
    · rcases List.mem_cons.mp h with h | h
      · exact h ▸ List.mem_cons_self _ _
      · exact List.mem_cons_of_mem _ (ih h)

theorem lookupA_eraseA_ne {k k' : String} {l : List (String × Span × Nat)}
    (h : k' ≠ k) : lookupA k' (eraseA k l) = lookupA k' l := by
  induction l with
  | nil => simp [eraseA]
  | cons hd tl ih =>
    obtain ⟨k0, v0⟩ := hd
    simp only [eraseA, lookupA]
    by_cases hk : k0 = k
    · simp only [if_pos hk, ih]
      rw [if_neg (by rw [hk]; exact fun hh => h hh.symm)]
    · simp only [if_neg hk, lookupA]
      by_cases hk' : k0 = k'
      · simp [hk']
      · simp [hk', ih]

theorem symbolAdd_tbl (i : Nat) (ident : Ident) (tbl : List (String × Span × Nat))
    (st : CheckSt) :
    (symbolAdd i ident tbl st).1 = (ident.2, ident.1, i) :: eraseA ident.2 tbl := by
  unfold symbolAdd insertA
  cases h : lookupA ident.2 tbl with
  | none => simp [h]
  | some v => obtain ⟨sp, j⟩ := v; simp [h]

theorem symbolAdd_errors (i : Nat) (ident : Ident) (tbl : List (String × Span × Nat))
    (st : CheckSt) : (symbolAdd i ident tbl st).2.1.errors = st.errors := by
  unfold symbolAdd insertA
  cases h : lookupA ident.2 tbl with
  | none => simp [h]
  | some v => obtain ⟨sp, j⟩ := v; simp [h, CheckSt.report]

theorem symbolAdd_ok (i : Nat) (ident : Ident) (tbl : List (String × Span × Nat))
    (st : CheckSt) :
    (symbolAdd i ident tbl st).2.2 = true ↔ lookupA ident.2 tbl = none := by
  unfold symbolAdd insertA
  cases h : lookupA ident.2 tbl with
  | none => simp [h]
  | some v => obtain ⟨sp, j⟩ := v; simp [h]

theorem enumFrom_mem_of_getElem :
    ∀ (stats : List Stat) (k j : Nat) (s : Stat), stats[j]? = some s →
      (k + j, s) ∈ enumFrom k stats := by
  intro stats
  induction stats with
  | nil => intro k j s h; simp at h
  | cons hd tl ih =>
    intro k j s h
    cases j with
    | zero => simp at h; simp [enumFrom, h]
    | succ j =>
      simp only [List.getElem?_cons_succ] at h
      have := ih (k + 1) j s h
      simp only [enumFrom, List.mem_cons]
      right
      have harith : k + 1 + j = k + (j + 1) := by omega
      rw [harith] at this
      exact this

theorem getElem_of_enumFrom_mem :
    ∀ (stats : List Stat) (k i : Nat) (s : Stat), (i, s) ∈ enumFrom k stats →
      k ≤ i ∧ stats[i - k]? = some s := by
  intro stats
  induction stats with
  | nil => intro k i s h; simp [enumFrom] at h
  | cons hd tl ih =>
    intro k i s h
    simp only [enumFrom, List.mem_cons] at h
    rcases h with h | h
    · cases h
      exact ⟨Nat.le_refl _, by simp⟩
    · obtain ⟨hle, hget⟩ := ih (k + 1) i s h
      refine ⟨by omega, ?_⟩
      have : i - k = (i - (k + 1)) + 1 := by omega
      rw [this]
      simpa using hget

theorem buildIndexLoop_mono :
    ∀ (l : List (Nat × Stat)) (tbls : Tables) (st : CheckSt),
      st.errors ≤ ((buildIndexLoop l tbls st).2).errors := by
  intro l
  induction l with
  | nil => intro tbls st; simp [buildIndexLoop]
  | cons hd tl ih =>
    intro tbls st
    obtain ⟨index, stat⟩ := hd
    have step :
        ∀ (id : Ident) (tbls' : Tables) (st1 : CheckSt) (ok : Bool),
          (symbolAdd index id tbls.symbols st).2 = (st1, ok) →
          st.errors ≤ ((buildIndexLoop tl tbls' (if ok then st1 else st1.bump)).2).errors := by
      intro id tbls' st1 ok hadd
      have herr : st1.errors = st.errors := by
        have h := symbolAdd_errors index id tbls.symbols st
        rw [hadd] at h
        exact h
      cases ok with
      | true =>
        simp only [if_pos rfl]
        exact le_trans (le_of_eq herr.symm) (ih tbls' st1)
      | false =>
        simp only [Bool.false_eq_true, if_false]
        have h1 := ih tbls' st1.bump
        have hb : st1.bump.errors = st.errors + 1 := by
          simp [CheckSt.bump, herr]
        omega
    cases stat with
    | element node =>
      simp only [buildIndexLoop]
      rcases hadd : symbolAdd index node.ident tbls.symbols st with ⟨sy, st1, ok⟩
      simp only [hadd]
      exact step node.ident _ st1 ok (by rw [hadd])
    | leaf node =>
      simp only [buildIndexLoop]
      rcases hadd : symbolAdd index node.ident tbls.symbols st with ⟨sy, st1, ok⟩
      simp only [hadd]
      exact step node.ident _ st1 ok (by rw [hadd])
    | attr node =>
      simp only [buildIndexLoop]
      rcases hadd : symbolAdd index node.ident tbls.symbols st with ⟨sy, st1, ok⟩
      simp only [hadd]
      exact step node.ident _ st1 ok (by rw [hadd])
    | data node =>
      simp only [buildIndexLoop]
      rcases hadd : symbolAdd index node.ident tbls.symbols st with ⟨sy, st1, ok⟩
      simp only [hadd]
      exact step node.ident _ st1 ok (by rw [hadd])
    | mixin node =>
      simp only [buildIndexLoop]
      rcases hadd : symbolAdd index node.ident tbls.symbols st with ⟨sy, st1, ok⟩
      simp only [hadd, insertA]
      exact step node.ident _ st1 ok (by rw [hadd])
    | enum node =>
      simp only [buildIndexLoop]
      rcases hadd : symbolAdd index node.ident tbls.symbols st with ⟨sy, st1, ok⟩
      simp only [hadd]
      exact step node.ident _ st1 ok (by rw [hadd])
    | group node =>
      simp only [buildIndexLoop]
      rcases hadd : symbolAdd index node.ident tbls.symbols st with ⟨sy, st1, ok⟩
      simp only [hadd, insertA]
      exact step node.ident _ st1 ok (by rw [hadd])
    | applyTo node => simp only [buildIndexLoop]; exact ih tbls st
    | childrenOf node => simp only [buildIndexLoop]; exact ih tbls st

theorem buildIndexLoop_prov :
    ∀ (l : List (Nat × Stat)) (tbls : Tables) (st : CheckSt) (stats : List Stat),
      (∀ p ∈ l, stats[p.1]? = some p.2) →
      SymProv stats tbls.symbols → GrpProv stats tbls.groups →
      SymProv stats ((buildIndexLoop l tbls st).1).symbols ∧
      GrpProv stats ((buildIndexLoop l tbls st).1).groups := by
  intro l
  induction l with
  | nil => intro tbls st stats _ hsym hgrp; exact ⟨hsym, hgrp⟩
  | cons hd tl ih =>
    intro tbls st stats hcons hsym hgrp
    obtain ⟨index, stat⟩ := hd
    have hget : stats[index]? = some stat := hcons (index, stat) (List.mem_cons_self _ _)
    have hconsTl : ∀ p ∈ tl, stats[p.1]? = some p.2 :=
      fun p hp => hcons p (List.mem_cons_of_mem _ hp)
    have symStep : ∀ (nm : Ident) (s : Stat), stats[index]? = some s → s.name = some nm →
        SymProv stats ((nm.2, nm.1, index) :: eraseA nm.2 tbls.symbols) := by
      intro nm s hg hname e he
      rcases List.mem_cons.mp he with he | he
      · subst he
        exact ⟨s, hg, by simpa using hname⟩
      · exact hsym e (eraseA_subset he)
    cases stat with
    | element node =>
      simp only [buildIndexLoop]
      rcases hadd : symbolAdd index node.ident tbls.symbols st with ⟨sy, st1, ok⟩
      simp only [hadd]
      have hsy : sy = (node.ident.2, node.ident.1, index) :: eraseA node.ident.2 tbls.symbols := by
        have h := symbolAdd_tbl index node.ident tbls.symbols st; rw [hadd] at h; exact h
      exact ih _ _ stats hconsTl (hsy ▸ symStep node.ident _ hget rfl) hgrp
    | leaf node =>
      simp only [buildIndexLoop]
      rcases hadd : symbolAdd index node.ident tbls.symbols st with ⟨sy, st1, ok⟩
      simp only [hadd]
      have hsy : sy = (node.ident.2, node.ident.1, index) :: eraseA node.ident.2 tbls.symbols := by
        have h := symbolAdd_tbl index node.ident tbls.symbols st; rw [hadd] at h; exact h
      exact ih _ _ stats hconsTl (hsy ▸ symStep node.ident _ hget rfl) hgrp
    | attr node =>
      simp only [buildIndexLoop]
      rcases hadd : symbolAdd index node.ident tbls.symbols st with ⟨sy, st1, ok⟩
      simp only [hadd]
      have hsy : sy = (node.ident.2, node.ident.1, index) :: eraseA node.ident.2 tbls.symbols := by
        have h := symbolAdd_tbl index node.ident tbls.symbols st; rw [hadd] at h; exact h
      exact ih _ _ stats hconsTl (hsy ▸ symStep node.ident _ hget rfl) hgrp
    | data node =>
      simp only [buildIndexLoop]
      rcases hadd : symbolAdd index node.ident tbls.symbols st with ⟨sy, st1, ok⟩
      simp only [hadd]
      have hsy : sy = (node.ident.2, node.ident.1, index) :: eraseA node.ident.2 tbls.symbols := by
        have h := symbolAdd_tbl index node.ident tbls.symbols st; rw [hadd] at h; exact h
      exact ih _ _ stats hconsTl (hsy ▸ symStep node.ident _ hget rfl) hgrp
    | mixin node =>
      simp only [buildIndexLoop]
      rcases hadd : symbolAdd index node.ident tbls.symbols st with ⟨sy, st1, ok⟩
      simp only [hadd, insertA]
      have hsy : sy = (node.ident.2, node.ident.1, index) :: eraseA node.ident.2 tbls.symbols := by
        have h := symbolAdd_tbl index node.ident tbls.symbols st; rw [hadd] at h; exact h
      exact ih _ _ stats hconsTl (hsy ▸ symStep node.ident _ hget rfl) hgrp
    | enum node =>
      simp only [buildIndexLoop]
      rcases hadd : symbolAdd index node.ident tbls.symbols st with ⟨sy, st1, ok⟩
      simp only [hadd]
      have hsy : sy = (node.ident.2, node.ident.1, index) :: eraseA node.ident.2 tbls.symbols := by
        have h := symbolAdd_tbl index node.ident tbls.symbols st; rw [hadd] at h; exact h
      exact ih _ _ stats hconsTl (hsy ▸ symStep node.ident _ hget rfl) hgrp
    | group node =>
      simp only [buildIndexLoop]
      rcases hadd : symbolAdd index node.ident tbls.symbols st with ⟨sy, st1, ok⟩
      simp only [hadd, insertA]
      have hsy : sy = (node.ident.2, node.ident.1, index) :: eraseA node.ident.2 tbls.symbols := by
        have h := symbolAdd_tbl index node.ident tbls.symbols st; rw [hadd] at h; exact h
      refine ih _ _ stats hconsTl (hsy ▸ symStep node.ident _ hget rfl) ?_
      intro e he
      rcases List.mem_cons.mp he with he | he
      · subst he
        exact ⟨node, hget, rfl⟩
      · exact hgrp e (eraseA_subset he)
    | applyTo node =>
      simp only [buildIndexLoop]
      exact ih _ _ stats hconsTl hsym hgrp
    | childrenOf node =>
      simp only [buildIndexLoop]
      exact ih _ _ stats hconsTl hsym hgrp

theorem buildIndexLoop_complete :
    ∀ (l : List (Nat × Stat)) (tbls : Tables) (st : CheckSt),
      ((buildIndexLoop l tbls st).2).errors = st.errors →
      (∀ k v, lookupA k tbls.symbols = some v →
          lookupA k ((buildIndexLoop l tbls st).1).symbols = some v) ∧
      (∀ p ∈ l, ∀ nm : Ident, (p.2 : Stat).name = some nm →
          lookupA nm.2 ((buildIndexLoop l tbls st).1).symbols = some (nm.1, p.1)) := by
  intro l
  induction l with
  | nil =>
    intro tbls st _
    exact ⟨fun k v h => h, fun p hp => absurd hp (List.not_mem_nil _)⟩
  | cons hd tl ih =>
    intro tbls st herrEq
    obtain ⟨index, stat⟩ := hd
    -- Shared treatment of a named statement inserting `nm` into the symbols.
    have step :
        ∀ (nm : Ident) (tbls' : Tables) (sy : List (String × Span × Nat))
          (st1 : CheckSt) (ok : Bool),
          (symbolAdd index nm tbls.symbols st) = (sy, st1, ok) →
          tbls'.symbols = sy →
          ((buildIndexLoop tl tbls' (if ok then st1 else st1.bump)).2).errors = st.errors →
          (∀ k v, lookupA k tbls.symbols = some v →
              lookupA k ((buildIndexLoop tl tbls' (if ok then st1 else st1.bump)).1).symbols = some v) ∧
          lookupA nm.2 ((buildIndexLoop tl tbls' (if ok then st1 else st1.bump)).1).symbols
            = some (nm.1, index) ∧
          (∀ p ∈ tl, ∀ nm' : Ident, (p.2 : Stat).name = some nm' →
              lookupA nm'.2 ((buildIndexLoop tl tbls' (if ok then st1 else st1.bump)).1).symbols
                = some (nm'.1, p.1)) := by
      intro nm tbls' sy st1 ok hadd hsy hfin
      have herr1 : st1.errors = st.errors := by
        have h := symbolAdd_errors index nm tbls.symbols st
        rw [hadd] at h; exact h
      have hok : ok = true := by
        cases ok with
        | true => rfl
        | false =>
          exfalso
          have hmono := buildIndexLoop_mono tl tbls' st1.bump
          simp only [Bool.false_eq_true, if_false] at hfin
          have : st1.bump.errors = st.errors + 1 := by simp [CheckSt.bump, herr1]
          omega
      subst hok
      simp only [eq_self_iff_true, if_true] at hfin ⊢
      have hnone : lookupA nm.2 tbls.symbols = none := by
        have h := (symbolAdd_ok index nm tbls.symbols st).mp (by rw [hadd])
        exact h
      have hsyv : sy = (nm.2, nm.1, index) :: eraseA nm.2 tbls.symbols := by
        have h := symbolAdd_tbl index nm tbls.symbols st; rw [hadd] at h; exact h
      obtain ⟨presR, complR⟩ := ih tbls' st1 (by rw [hfin, herr1])
      have hpres : ∀ k v, lookupA k tbls.symbols = some v →
          lookupA k ((buildIndexLoop tl tbls' st1).1).symbols = some v := by
        intro k v hkv
        have hkne : nm.2 ≠ k := by
          intro he; rw [← he, hnone] at hkv; cases hkv
        refine presR k v ?_
        rw [hsy, hsyv]
        simp only [lookupA, if_neg hkne]
        rw [lookupA_eraseA_ne (fun h => hkne h.symm)]
        exact hkv
      refine ⟨hpres, ?_, complR⟩
      refine presR nm.2 (nm.1, index) ?_
      rw [hsy, hsyv]
      simp [lookupA]
    -- dispatch on the statement kind
    cases stat with
    | element node =>
      simp only [buildIndexLoop] at herrEq ⊢
      rcases hadd : symbolAdd index node.ident tbls.symbols st with ⟨sy, st1, ok⟩
      simp only [hadd] at herrEq ⊢
      obtain ⟨hp, hself, hrest⟩ := step node.ident _ sy st1 ok hadd rfl herrEq
      refine ⟨hp, ?_⟩
      intro p hp' nm hnm
      rcases List.mem_cons.mp hp' with he | he
      · subst he
        simp only [Stat.name, Option.some.injEq] at hnm
        rw [← hnm]
        exact hself
      · exact hrest p he nm hnm
    | leaf node =>
      simp only [buildIndexLoop] at herrEq ⊢
      rcases hadd : symbolAdd index node.ident tbls.symbols st with ⟨sy, st1, ok⟩
      simp only [hadd] at herrEq ⊢
      obtain ⟨hp, hself, hrest⟩ := step node.ident _ sy st1 ok hadd rfl herrEq
      refine ⟨hp, ?_⟩
      intro p hp' nm hnm
      rcases List.mem_cons.mp hp' with he | he
      · subst he
        simp only [Stat.name, Option.some.injEq] at hnm
        rw [← hnm]
        exact hself
      · exact hrest p he nm hnm
    | attr node =>
      simp only [buildIndexLoop] at herrEq ⊢
      rcases hadd : symbolAdd index node.ident tbls.symbols st with ⟨sy, st1, ok⟩
      simp only [hadd] at herrEq ⊢
      obtain ⟨hp, hself, hrest⟩ := step node.ident _ sy st1 ok hadd rfl herrEq
      refine ⟨hp, ?_⟩
      intro p hp' nm hnm
      rcases List.mem_cons.mp hp' with he | he
      · subst he
        simp only [Stat.name, Option.some.injEq] at hnm
        rw [← hnm]
        exact hself
      · exact hrest p he nm hnm
    | data node =>
      simp only [buildIndexLoop] at herrEq ⊢
      rcases hadd : symbolAdd index node.ident tbls.symbols st with ⟨sy, st1, ok⟩
      simp only [hadd] at herrEq ⊢
      obtain ⟨hp, hself, hrest⟩ := step node.ident _ sy st1 ok hadd rfl herrEq
      refine ⟨hp, ?_⟩
      intro p hp' nm hnm
      rcases List.mem_cons.mp hp' with he | he
      · subst he
        simp only [Stat.name, Option.some.injEq] at hnm
        rw [← hnm]
        exact hself
      · exact hrest p he nm hnm
    | mixin node =>
      simp only [buildIndexLoop] at herrEq ⊢
      rcases hadd : symbolAdd index node.ident tbls.symbols st with ⟨sy, st1, ok⟩
      simp only [hadd, insertA] at herrEq ⊢
      obtain ⟨hp, hself, hrest⟩ := step node.ident _ sy st1 ok hadd rfl herrEq
      refine ⟨hp, ?_⟩
      intro p hp' nm hnm
      rcases List.mem_cons.mp hp' with he | he
      · subst he
        simp only [Stat.name, Option.some.injEq] at hnm
        rw [← hnm]
        exact hself
      · exact hrest p he nm hnm
    | enum node =>
      simp only [buildIndexLoop] at herrEq ⊢
      rcases hadd : symbolAdd index node.ident tbls.symbols st with ⟨sy, st1, ok⟩
      simp only [hadd] at herrEq ⊢
      obtain ⟨hp, hself, hrest⟩ := step node.ident _ sy st1 ok hadd rfl herrEq
      refine ⟨hp, ?_⟩
      intro p hp' nm hnm
      rcases List.mem_cons.mp hp' with he | he
      · subst he
        simp only [Stat.name, Option.some.injEq] at hnm
        rw [← hnm]
        exact hself
      · exact hrest p he nm hnm
    | group node =>
      simp only [buildIndexLoop] at herrEq ⊢
      rcases hadd : symbolAdd index node.ident tbls.symbols st with ⟨sy, st1, ok⟩
      simp only [hadd, insertA] at herrEq ⊢
      obtain ⟨hp, hself, hrest⟩ := step node.ident _ sy st1 ok hadd rfl herrEq
      refine ⟨hp, ?_⟩
      intro p hp' nm hnm
      rcases List.mem_cons.mp hp' with he | he
      · subst he
        simp only [Stat.name, Option.some.injEq] at hnm
        rw [← hnm]
        exact hself
      · exact hrest p he nm hnm
    | applyTo node =>
      simp only [buildIndexLoop] at herrEq ⊢
      obtain ⟨hp, hrest⟩ := ih tbls st herrEq
      refine ⟨hp, ?_⟩
      intro p hp' nm hnm
      rcases List.mem_cons.mp hp' with he | he
      · subst he; cases hnm
      · exact hrest p he nm hnm
    | childrenOf node =>
      simp only [buildIndexLoop] at herrEq ⊢
      obtain ⟨hp, hrest⟩ := ih tbls st herrEq
      refine ⟨hp, ?_⟩
      intro p hp' nm hnm
      rcases List.mem_cons.mp hp' with he | he
      · subst he; cases hnm
      · exact hrest p he nm hnm

/-- Completeness of the symbol index on an error-free pass 1: every named
statement is found at its own index. -/
theorem buildIndex_complete (stats : List Stat)
    (h : ((buildIndex stats).2).errors = 0) :
    ∀ (i : Nat) (s : Stat) (nm : Ident), stats[i]? = some s → s.name = some nm →
      lookupA nm.2 ((buildIndex stats).1).symbols = some (nm.1, i) := by
  intro i s nm hget hname
  have hcompl := (buildIndexLoop_complete (enumFrom 0 stats) ⟨[], [], []⟩ ⟨0, []⟩ h).2
  have hmem : (i, s) ∈ enumFrom 0 stats := by
    have := enumFrom_mem_of_getElem stats 0 i s hget
    simpa using this
  exact hcompl (i, s) hmem nm hname

/-- Provenance of the symbol and group tables built by pass 1. -/
theorem buildIndex_prov (stats : List Stat) :
    SymProv stats ((buildIndex stats).1).symbols ∧
    GrpProv stats ((buildIndex stats).1).groups := by
  refine buildIndexLoop_prov (enumFrom 0 stats) ⟨[], [], []⟩ ⟨0, []⟩ stats ?_ ?_ ?_
  · intro p hp
    have := getElem_of_enumFrom_mem stats 0 p.1 p.2 hp
    simpa using this.2
  · intro e he; cases he
  · intro e he; cases he

/-- Under a complete index, an identifier that resolves to some entry whose
statement is not a group cannot be the name of any group declaration. -/
theorem not_groupName_of_resolves (stats : List Stat) (tbls : Tables)
    (htbls : tbls = (buildIndex stats).1)
    (herr : ((buildIndex stats).2).errors = 0)
    (n : String) (sp : Span) (j : Nat)
    (hlook : lookupA n tbls.symbols = some (sp, j))
    (hnotg : ∀ g : Group, stats[j]? ≠ some (.group g)) :
    groupNameB stats n = false := by
  by_contra hcon
  have hany : stats.any (fun s =>
      match s with
      | .group g => g.ident.2 == n
      | _ => false) = true := by
    cases hval : groupNameB stats n with
    | true => exact hval
    | false => exact absurd hval hcon
  rw [List.any_eq_true] at hany
  obtain ⟨s, hsmem, hsval⟩ := hany
  obtain ⟨g, rfl⟩ : ∃ g, s = .group g := by
    cases s <;> simp_all
  have hge : g.ident.2 = n := by
    simpa using hsval
  obtain ⟨m, hm⟩ := List.mem_iff_getElem?.mp hsmem
  have hlook2 : lookupA g.ident.2 tbls.symbols = some (g.ident.1, m) := by
    rw [htbls]
    exact buildIndex_complete stats herr m (.group g) g.ident hm rfl
  rw [hge, hlook] at hlook2
  obtain ⟨-, hjm⟩ := Prod.mk.injEq .. ▸ (Option.some.injEq _ _ ▸ hlook2)
  exact hnotg g (by rw [hjm]; exact hm)

theorem symbolCheck_errors (opcodes : List Stat) (tbls : Tables) (ident : Ident)
    (expectType : Bool) (st : CheckSt) :
    ((symbolCheck opcodes tbls ident expectType st).1).errors
      = st.errors + symbolCheckErr opcodes tbls ident expectType := by
  unfold symbolCheck symbolCheckErr
  cases hl : lookupA ident.2 tbls.symbols with
  | none => simp [hl, CheckSt.bump, CheckSt.report]
  | some v =>
    obtain ⟨sp, index⟩ := v
    simp only [hl]
    cases hg : opcodes[index]? with
    | none => simp [hg]
    | some s =>
      cases s <;> cases expectType <;> simp [hg, CheckSt.bump, CheckSt.report]

theorem symbolCheck_bool (opcodes : List Stat) (tbls : Tables) (ident : Ident)
    (expectType : Bool) (st : CheckSt) :
    (symbolCheck opcodes tbls ident expectType st).2 = symbolCheckB opcodes tbls ident := by
  unfold symbolCheck symbolCheckB
  cases hl : lookupA ident.2 tbls.symbols with
  | none => simp [hl]
  | some v =>
    obtain ⟨sp, index⟩ := v
    simp only [hl]
    cases hg : opcodes[index]? with
    | none => simp [hg]
    | some s =>
      cases s <;> cases expectType <;> simp [hg]

theorem typeCheck_errors (opcodes : List Stat) (tbls : Tables) :
    ∀ (ty : Ty) (st : CheckSt),
      (typeCheck opcodes tbls st ty).errors = st.errors + typeCheckErr opcodes tbls ty := by
  intro ty
  induction ty with
  | data ident => intro st; simpa [typeCheck, typeCheckErr] using
      symbolCheck_errors opcodes tbls ident true st
  | listOf component sp ih => intro st; simpa [typeCheck, typeCheckErr] using ih st
  | arrayOf component length sp ih => intro st; simpa [typeCheck, typeCheckErr] using ih st
  | _ => intro st; simp [typeCheck, typeCheckErr]

theorem typeCheckFields_errors (opcodes : List Stat) (tbls : Tables) :
    ∀ (l : List Ty) (st : CheckSt),
      (typeCheckFields opcodes tbls l st).errors = st.errors + typeListErr opcodes tbls l := by
  intro l
  induction l with
  | nil => intro st; simp [typeCheckFields, typeListErr]
  | cons t rest ih =>
    intro st
    simp only [typeCheckFields]
    rw [ih]
    rw [typeCheck_errors]
    simp [typeListErr]
    omega

theorem callCheck_errors (call : Call) (st : CheckSt) :
    (callCheck call st).errors = st.errors + callErrN call := by
  unfold callCheck callErrN
  split_ifs <;> simp [CheckSt.bump, CheckSt.report]

theorem callsCheck_errors : ∀ (l : List Call) (st : CheckSt),
    (callsCheck l st).errors = st.errors + callsErr l := by
  intro l
  induction l with
  | nil => intro st; simp [callsCheck, callsErr]
  | cons c rest ih =>
    intro st
    simp only [callsCheck]
    rw [ih, callCheck_errors]
    simp [callsErr]
    omega

theorem propCheck_errors : ∀ (l : List Property) (st : CheckSt),
    (propCheck l st).errors = st.errors + propErr l := by
  intro l
  induction l with
  | nil => intro st; simp [propCheck, propErr]
  | cons p rest ih =>
    intro st
    simp only [propCheck]
    rw [ih, callsCheck_errors]
    simp [propErr]
    omega

theorem nodeCheck_errors (opcodes : List Stat) (tbls : Tables) (n : Node)
    (st st' : CheckSt) (r : Option Node)
    (h : nodeCheck opcodes tbls n st = some (st', r)) :
    st'.errors = st.errors + nodeErr opcodes tbls n := by
  have hbase : (propCheck n.properties (typeCheckFields opcodes tbls n.fields.tys st)).errors
      = st.errors + nodeErr opcodes tbls n := by
    rw [propCheck_errors, typeCheckFields_errors, nodeErr]
    omega
  unfold nodeCheck at h
  cases hmx : n.mixin with
  | none =>
    simp only [hmx] at h
    cases h
    exact hbase
  | some mixinRef =>
    simp only [hmx] at h
    cases hl : lookupA mixinRef.2 tbls.mixins with
    | none =>
      simp only [hl] at h
      cases h
      simpa [CheckSt.report] using hbase
    | some v =>
      obtain ⟨sp, index⟩ := v
      simp only [hl] at h
      cases hg : opcodes[index]? with
      | none => rw [hg] at h; cases h
      | some s =>
        rw [hg] at h
        cases s with
        | mixin m =>
          dsimp only at h
          cases happ : n.fields.append m.fields with
          | ok fs =>
            rw [happ] at h
            dsimp only at h
            cases h
            exact hbase
          | error fs =>
            rw [happ] at h
            dsimp only at h
            cases h
            simpa [CheckSt.report] using hbase
        | element m => cases h
        | leaf m => cases h
        | attr m => cases h
        | data m => cases h
        | enum m => cases h
        | group m => cases h
        | applyTo m => cases h
        | childrenOf m => cases h

theorem enumCheckGo_errors (opcodes : List Stat) (tbls : Tables) :
    ∀ (l : List Node) (st : CheckSt),
      (enumCheck.go opcodes tbls l st).errors
        = st.errors + (l.map (fun v => typeListErr opcodes tbls v.fields.tys)).sum := by
  intro l
  induction l with
  | nil => intro st; simp [enumCheck.go]
  | cons v rest ih =>
    intro st
    simp only [enumCheck.go]
    rw [ih, typeCheckFields_errors]
    simp
    omega

theorem enumCheck_errors (opcodes : List Stat) (tbls : Tables) (e : EnumDecl)
    (st : CheckSt) :
    (enumCheck opcodes tbls e st).errors = st.errors + enumErr opcodes tbls e := by
  unfold enumCheck enumErr
  exact enumCheckGo_errors opcodes tbls e.fields st

theorem groupCheckGo_errors (opcodes : List Stat) (tbls : Tables) :
    ∀ (l : List Ident) (st : CheckSt),
      (groupCheck.go opcodes tbls l st).errors
        = st.errors + (l.map (fun c => symbolCheckErr opcodes tbls c true)).sum := by
  intro l
  induction l with
  | nil => intro st; simp [groupCheck.go]
  | cons c rest ih =>
    intro st
    simp only [groupCheck.go]
    rw [ih, symbolCheck_errors]
    simp
    omega

theorem groupCheck_errors (opcodes : List Stat) (tbls : Tables) (g : Group)
    (st : CheckSt) :
    (groupCheck opcodes tbls g st).errors = st.errors + groupErr opcodes tbls g := by
  unfold groupCheck groupErr
  exact groupCheckGo_errors opcodes tbls g.children st

theorem expandEndpoints_spec (opcodes : List Stat) (tbls : Tables) :
    ∀ (l : List Ident) (st st' : CheckSt) (out : List Ident),
      expandEndpoints opcodes tbls l st = some (st', out) →
      st'.errors = st.errors + endpointsErr opcodes tbls l ∧
      out = l.flatMap (expandE opcodes tbls) := by
  intro l
  induction l with
  | nil =>
    intro st st' out h
    simp only [expandEndpoints] at h
    cases h
    simp [endpointsErr]
  | cons ident rest ih =>
    intro st st' out h
    simp only [expandEndpoints] at h
    rcases hsc : symbolCheck opcodes tbls ident false st with ⟨st1, b⟩
    rw [hsc] at h
    have herr1 : st1.errors = st.errors + symbolCheckErr opcodes tbls ident false := by
      have := symbolCheck_errors opcodes tbls ident false st
      rw [hsc] at this
      exact this
    have hb : b = symbolCheckB opcodes tbls ident := by
      have := symbolCheck_bool opcodes tbls ident false st
      rw [hsc] at this
      exact this
    cases b with
    | true =>
      dsimp only at h
      cases hrec : expandEndpoints opcodes tbls rest st1 with
      | none => rw [hrec] at h; cases h
      | some p =>
        obtain ⟨stR, outR⟩ := p
        rw [hrec] at h
        dsimp only at h
        cases h
        obtain ⟨he, ho⟩ := ih _ _ _ hrec
        constructor
        · rw [he, herr1]
          simp [endpointsErr]
          omega
        · simp only [List.flatMap_cons]
          rw [expandE, ← hb]
          simp [ho]
    | false =>
      dsimp only at h
      unfold expandWithGroup at h
      cases hl : lookupA ident.2 tbls.groups with
      | none =>
        rw [hl] at h
        dsimp only at h
        cases hrec : expandEndpoints opcodes tbls rest (st1.report (.unknown ident.2)) with
        | none => rw [hrec] at h; cases h
        | some p =>
          obtain ⟨stR, outR⟩ := p
          rw [hrec] at h
          dsimp only at h
          cases h
          obtain ⟨he, ho⟩ := ih _ _ _ hrec
          constructor
          · rw [he]
            simp only [CheckSt.report] at herr1 ⊢
            simp [endpointsErr]
            omega
          · simp only [List.flatMap_cons]
            rw [expandE, ← hb]
            simp [hl, ho]
      | some v =>
        obtain ⟨sp, index⟩ := v
        rw [hl] at h
        dsimp only at h
        cases hg : opcodes[index]? with
        | none => rw [hg] at h; dsimp only at h; cases h
        | some s =>
          rw [hg] at h
          cases s with
          | group g =>
            dsimp only at h
            cases hrec : expandEndpoints opcodes tbls rest st1 with
            | none => rw [hrec] at h; cases h
            | some p =>
              obtain ⟨stR, outR⟩ := p
              rw [hrec] at h
              dsimp only at h
              cases h
              obtain ⟨he, ho⟩ := ih _ _ _ hrec
              constructor
              · rw [he, herr1]
                simp [endpointsErr]
                omega
              · simp only [List.flatMap_cons]
                rw [expandE, ← hb]
                simp [hl, hg, ho]
          | element g => cases h
          | leaf g => cases h
          | attr g => cases h
          | data g => cases h
          | mixin g => cases h
          | enum g => cases h
          | applyTo g => cases h
          | childrenOf g => cases h

theorem applyToCheck_spec (opcodes : List Stat) (tbls : Tables) (a : ApplyTo)
    (st st' : CheckSt) (u : Stat)
    (h : applyToCheck opcodes tbls a st = some (st', u)) :
    st'.errors = st.errors + statErr opcodes tbls (.applyTo a) ∧
    u = .applyTo (expandApplyPure opcodes tbls a) := by
  unfold applyToCheck at h
  cases hf : expandEndpoints opcodes tbls a.from_ st with
  | none => rw [hf] at h; cases h
  | some p =>
    obtain ⟨st1, fromExpand⟩ := p
    rw [hf] at h
    dsimp only at h
    cases ht : expandEndpoints opcodes tbls a.to_ st1 with
    | none => rw [ht] at h; cases h
    | some q =>
      obtain ⟨st2, toExpand⟩ := q
      rw [ht] at h
      dsimp only at h
      cases h
      obtain ⟨hef, hof⟩ := expandEndpoints_spec opcodes tbls a.from_ _ _ _ hf
      obtain ⟨het, hot⟩ := expandEndpoints_spec opcodes tbls a.to_ _ _ _ ht
      constructor
      · rw [het, hef]
        simp [statErr]
        omega
      · rw [hof, hot]
        rfl

theorem childrenOfCheck_spec (opcodes : List Stat) (tbls : Tables) (c : ChildrenOf)
    (st st' : CheckSt) (u : Stat)
    (h : childrenOfCheck opcodes tbls c st = some (st', u)) :
    st'.errors = st.errors + statErr opcodes tbls (.childrenOf c) ∧
    u = .childrenOf (expandChildrenPure opcodes tbls c) := by
  unfold childrenOfCheck at h
  cases hf : expandEndpoints opcodes tbls c.from_ st with
  | none => rw [hf] at h; cases h
  | some p =>
    obtain ⟨st1, fromExpand⟩ := p
    rw [hf] at h
    dsimp only at h
    cases ht : expandEndpoints opcodes tbls c.to_ st1 with
    | none => rw [ht] at h; cases h
    | some q =>
      obtain ⟨st2, toExpand⟩ := q
      rw [ht] at h
      dsimp only at h
      cases h
      obtain ⟨hef, hof⟩ := expandEndpoints_spec opcodes tbls c.from_ _ _ _ hf
      obtain ⟨het, hot⟩ := expandEndpoints_spec opcodes tbls c.to_ _ _ _ ht
      constructor
      · rw [het, hef]
        simp [statErr]
        omega
      · rw [hof, hot]
        rfl

theorem checkLoop_spec (opcodes : List Stat) (tbls : Tables) :
    ∀ (l : List (Nat × Stat)) (st st' : CheckSt) (ups : List (Nat × Stat)),
      checkLoop opcodes tbls l st = some (st', ups) →
      st'.errors = st.errors + listErr opcodes tbls l ∧
      (∀ p ∈ ups, ∃ s, (p.1, s) ∈ l ∧ updRel opcodes tbls s p.2) ∧
      (∀ p ∈ l, (∀ a, p.2 = Stat.applyTo a →
          (p.1, Stat.applyTo (expandApplyPure opcodes tbls a)) ∈ ups) ∧
        (∀ c, p.2 = Stat.childrenOf c →
          (p.1, Stat.childrenOf (expandChildrenPure opcodes tbls c)) ∈ ups)) ∧
      (ups.map Prod.fst).Sublist (l.map Prod.fst) := by
  intro l
  induction l with
  | nil =>
    intro st st' ups h
    simp only [checkLoop] at h
    cases h
    refine ⟨by simp [listErr], ?_, ?_, by simp⟩
    · intro p hp; cases hp
    · intro p hp; cases hp
  | cons hd tl ih =>
    intro st st' ups h
    obtain ⟨index, stat⟩ := hd
    -- helper for reassembling the three membership conjuncts after a cons
    have passUps : ∀ (u : Nat × Stat) (upsR : List (Nat × Stat)),
        (∀ p ∈ upsR, ∃ s, (p.1, s) ∈ tl ∧ updRel opcodes tbls s p.2) →
        (∃ s0, ((u.1, s0) = (index, stat) ∨ (u.1, s0) ∈ tl) ∧ updRel opcodes tbls s0 u.2) →
        ∀ p ∈ u :: upsR, ∃ s, (p.1, s) ∈ (index, stat) :: tl ∧ updRel opcodes tbls s p.2 := by
      intro u upsR hR hU p hp
      rcases List.mem_cons.mp hp with hp | hp
      · subst hp
        obtain ⟨s0, hs0, hrel⟩ := hU
        exact ⟨s0, List.mem_cons.mpr hs0, hrel⟩
      · obtain ⟨s, hsmem, hrel⟩ := hR p hp
        exact ⟨s, List.mem_cons_of_mem _ hsmem, hrel⟩
    cases stat with
    | element node =>
      simp only [checkLoop] at h
      cases hnc : nodeCheck opcodes tbls node st with
      | none => rw [hnc] at h; cases h
      | some p =>
        obtain ⟨st1, r⟩ := p
        rw [hnc] at h
        have hne := nodeCheck_errors opcodes tbls node st st1 r hnc
        cases r with
        | some n2 =>
          dsimp only at h
          cases hrec : checkLoop opcodes tbls tl st1 with
          | none => rw [hrec] at h; simp [checkLoop.consUpdate] at h
          | some q =>
            obtain ⟨st2, upsR⟩ := q
            rw [hrec] at h
            simp only [checkLoop.consUpdate] at h
            cases h
            obtain ⟨hErr, hU1, hU2, hSub⟩ := ih _ _ _ hrec
            refine ⟨?_, ?_, ?_, ?_⟩
            · rw [hErr, hne]; simp [listErr, statErr]; omega
            · refine passUps (index, Stat.element n2) upsR hU1 ?_
              refine ⟨Stat.element node, Or.inl ?_, ?_⟩
              · rfl
              · exact ⟨n2, rfl⟩
            · intro p hp
              rcases List.mem_cons.mp hp with hp | hp
              · subst hp
                exact ⟨fun a ha => (by cases ha), fun c hc => (by cases hc)⟩
              · exact ⟨fun a ha => List.mem_cons_of_mem _ ((hU2 p hp).1 a ha),
                  fun c hc => List.mem_cons_of_mem _ ((hU2 p hp).2 c hc)⟩
            · simp only [List.map_cons]; exact List.Sublist.cons₂ _ hSub
        | none =>
          dsimp only at h
          obtain ⟨hErr, hU1, hU2, hSub⟩ := ih _ _ _ h
          refine ⟨?_, ?_, ?_, ?_⟩
          · rw [hErr, hne]; simp [listErr, statErr]; omega
          · intro p hp
            obtain ⟨s, hsmem, hrel⟩ := hU1 p hp
            exact ⟨s, List.mem_cons_of_mem _ hsmem, hrel⟩
          · intro p hp
            rcases List.mem_cons.mp hp with hp | hp
            · subst hp
              exact ⟨fun a ha => (by cases ha), fun c hc => (by cases hc)⟩
            · exact hU2 p hp
          · simp only [List.map_cons]; exact List.Sublist.cons _ hSub
    | leaf node =>
      simp only [checkLoop] at h
      cases hnc : nodeCheck opcodes tbls node st with
      | none => rw [hnc] at h; cases h
      | some p =>
        obtain ⟨st1, r⟩ := p
        rw [hnc] at h
        have hne := nodeCheck_errors opcodes tbls node st st1 r hnc
        cases r with
        | some n2 =>
          dsimp only at h
          cases hrec : checkLoop opcodes tbls tl st1 with
          | none => rw [hrec] at h; simp [checkLoop.consUpdate] at h
          | some q =>
            obtain ⟨st2, upsR⟩ := q
            rw [hrec] at h
            simp only [checkLoop.consUpdate] at h
            cases h
            obtain ⟨hErr, hU1, hU2, hSub⟩ := ih _ _ _ hrec
            refine ⟨?_, ?_, ?_, ?_⟩
            · rw [hErr, hne]; simp [listErr, statErr]; omega
            · exact passUps (index, Stat.leaf n2) upsR hU1 ⟨Stat.leaf node, Or.inl rfl, ⟨n2, rfl⟩⟩
            · intro p hp
              rcases List.mem_cons.mp hp with hp | hp
              · subst hp
                exact ⟨fun a ha => (by cases ha), fun c hc => (by cases hc)⟩
              · exact ⟨fun a ha => List.mem_cons_of_mem _ ((hU2 p hp).1 a ha),
                  fun c hc => List.mem_cons_of_mem _ ((hU2 p hp).2 c hc)⟩
            · simp only [List.map_cons]; exact List.Sublist.cons₂ _ hSub
        | none =>
          dsimp only at h
          obtain ⟨hErr, hU1, hU2, hSub⟩ := ih _ _ _ h
          refine ⟨?_, ?_, ?_, ?_⟩
          · rw [hErr, hne]; simp [listErr, statErr]; omega
          · intro p hp
            obtain ⟨s, hsmem, hrel⟩ := hU1 p hp
            exact ⟨s, List.mem_cons_of_mem _ hsmem, hrel⟩
          · intro p hp
            rcases List.mem_cons.mp hp with hp | hp
            · subst hp
              exact ⟨fun a ha => (by cases ha), fun c hc => (by cases hc)⟩
            · exact hU2 p hp
          · simp only [List.map_cons]; exact List.Sublist.cons _ hSub
    | attr node =>
      simp only [checkLoop] at h
      cases hnc : nodeCheck opcodes tbls node st with
      | none => rw [hnc] at h; cases h
      | some p =>
        obtain ⟨st1, r⟩ := p
        rw [hnc] at h
        have hne := nodeCheck_errors opcodes tbls node st st1 r hnc
        cases r with
        | some n2 =>
          dsimp only at h
          cases hrec : checkLoop opcodes tbls tl st1 with
          | none => rw [hrec] at h; simp [checkLoop.consUpdate] at h
          | some q =>
            obtain ⟨st2, upsR⟩ := q
            rw [hrec] at h
            simp only [checkLoop.consUpdate] at h
            cases h
            obtain ⟨hErr, hU1, hU2, hSub⟩ := ih _ _ _ hrec
            refine ⟨?_, ?_, ?_, ?_⟩
            · rw [hErr, hne]; simp [listErr, statErr]; omega
            · exact passUps (index, Stat.attr n2) upsR hU1 ⟨Stat.attr node, Or.inl rfl, ⟨n2, rfl⟩⟩
            · intro p hp
              rcases List.mem_cons.mp hp with hp | hp
              · subst hp
                exact ⟨fun a ha => (by cases ha), fun c hc => (by cases hc)⟩
              · exact ⟨fun a ha => List.mem_cons_of_mem _ ((hU2 p hp).1 a ha),
                  fun c hc => List.mem_cons_of_mem _ ((hU2 p hp).2 c hc)⟩
            · simp only [List.map_cons]; exact List.Sublist.cons₂ _ hSub
        | none =>
          dsimp only at h
          obtain ⟨hErr, hU1, hU2, hSub⟩ := ih _ _ _ h
          refine ⟨?_, ?_, ?_, ?_⟩
          · rw [hErr, hne]; simp [listErr, statErr]; omega
          · intro p hp
            obtain ⟨s, hsmem, hrel⟩ := hU1 p hp
            exact ⟨s, List.mem_cons_of_mem _ hsmem, hrel⟩
          · intro p hp
            rcases List.mem_cons.mp hp with hp | hp
            · subst hp
              exact ⟨fun a ha => (by cases ha), fun c hc => (by cases hc)⟩
            · exact hU2 p hp
          · simp only [List.map_cons]; exact List.Sublist.cons _ hSub
    | data node =>
      simp only [checkLoop] at h
      cases hnc : nodeCheck opcodes tbls node st with
      | none => rw [hnc] at h; cases h
      | some p =>
        obtain ⟨st1, r⟩ := p
        rw [hnc] at h
        have hne := nodeCheck_errors opcodes tbls node st st1 r hnc
        cases r with
        | some n2 =>
          dsimp only at h
          cases hrec : checkLoop opcodes tbls tl st1 with
          | none => rw [hrec] at h; simp [checkLoop.consUpdate] at h
          | some q =>
            obtain ⟨st2, upsR⟩ := q
            rw [hrec] at h
            simp only [checkLoop.consUpdate] at h
            cases h
            obtain ⟨hErr, hU1, hU2, hSub⟩ := ih _ _ _ hrec
            refine ⟨?_, ?_, ?_, ?_⟩
            · rw [hErr, hne]; simp [listErr, statErr]; omega
            · exact passUps (index, Stat.data n2) upsR hU1 ⟨Stat.data node, Or.inl rfl, ⟨n2, rfl⟩⟩
            · intro p hp
              rcases List.mem_cons.mp hp with hp | hp
              · subst hp
                exact ⟨fun a ha => (by cases ha), fun c hc => (by cases hc)⟩
              · exact ⟨fun a ha => List.mem_cons_of_mem _ ((hU2 p hp).1 a ha),
                  fun c hc => List.mem_cons_of_mem _ ((hU2 p hp).2 c hc)⟩
            · simp only [List.map_cons]; exact List.Sublist.cons₂ _ hSub
        | none =>
          dsimp only at h
          obtain ⟨hErr, hU1, hU2, hSub⟩ := ih _ _ _ h
          refine ⟨?_, ?_, ?_, ?_⟩
          · rw [hErr, hne]; simp [listErr, statErr]; omega
          · intro p hp
            obtain ⟨s, hsmem, hrel⟩ := hU1 p hp
            exact ⟨s, List.mem_cons_of_mem _ hsmem, hrel⟩
          · intro p hp
            rcases List.mem_cons.mp hp with hp | hp
            · subst hp
              exact ⟨fun a ha => (by cases ha), fun c hc => (by cases hc)⟩
            · exact hU2 p hp
          · simp only [List.map_cons]; exact List.Sublist.cons _ hSub
    | mixin node =>
      simp only [checkLoop] at h
      cases hnc : nodeCheck opcodes tbls node st with
      | none => rw [hnc] at h; cases h
      | some p =>
        obtain ⟨st1, r⟩ := p
        rw [hnc] at h
        have hne := nodeCheck_errors opcodes tbls node st st1 r hnc
        cases r with
        | some n2 => dsimp only at h; cases h
        | none =>
          dsimp only at h
          obtain ⟨hErr, hU1, hU2, hSub⟩ := ih _ _ _ h
          refine ⟨?_, ?_, ?_, ?_⟩
          · rw [hErr, hne]; simp [listErr, statErr]; omega
          · intro p hp
            obtain ⟨s, hsmem, hrel⟩ := hU1 p hp
            exact ⟨s, List.mem_cons_of_mem _ hsmem, hrel⟩
          · intro p hp
            rcases List.mem_cons.mp hp with hp | hp
            · subst hp
              exact ⟨fun a ha => (by cases ha), fun c hc => (by cases hc)⟩
            · exact hU2 p hp
          · simp only [List.map_cons]; exact List.Sublist.cons _ hSub
    | enum node =>
      simp only [checkLoop] at h
      obtain ⟨hErr, hU1, hU2, hSub⟩ := ih _ _ _ h
      refine ⟨?_, ?_, ?_, ?_⟩
      · rw [hErr, enumCheck_errors]; simp [listErr, statErr]; omega
      · intro p hp
        obtain ⟨s, hsmem, hrel⟩ := hU1 p hp
        exact ⟨s, List.mem_cons_of_mem _ hsmem, hrel⟩
      · intro p hp
        rcases List.mem_cons.mp hp with hp | hp
        · subst hp
          exact ⟨fun a ha => (by cases ha), fun c hc => (by cases hc)⟩
        · exact hU2 p hp
      · simp only [List.map_cons]; exact List.Sublist.cons _ hSub
    | group node =>
      simp only [checkLoop] at h
      obtain ⟨hErr, hU1, hU2, hSub⟩ := ih _ _ _ h
      refine ⟨?_, ?_, ?_, ?_⟩
      · rw [hErr, groupCheck_errors]; simp [listErr, statErr]; omega
      · intro p hp
        obtain ⟨s, hsmem, hrel⟩ := hU1 p hp
        exact ⟨s, List.mem_cons_of_mem _ hsmem, hrel⟩
      · intro p hp
        rcases List.mem_cons.mp hp with hp | hp
        · subst hp
          exact ⟨fun a ha => (by cases ha), fun c hc => (by cases hc)⟩
        · exact hU2 p hp
      · simp only [List.map_cons]; exact List.Sublist.cons _ hSub
    | applyTo node =>
      simp only [checkLoop] at h
      cases hac : applyToCheck opcodes tbls node st with
      | none => rw [hac] at h; cases h
      | some p =>
        obtain ⟨st1, u⟩ := p
        rw [hac] at h
        dsimp only at h
        obtain ⟨herr1, hu⟩ := applyToCheck_spec opcodes tbls node st st1 u hac
        cases hrec : checkLoop opcodes tbls tl st1 with
        | none => rw [hrec] at h; simp [checkLoop.consUpdate] at h
        | some q =>
          obtain ⟨st2, upsR⟩ := q
          rw [hrec] at h
          simp only [checkLoop.consUpdate] at h
          cases h
          obtain ⟨hErr, hU1, hU2, hSub⟩ := ih _ _ _ hrec
          refine ⟨?_, ?_, ?_, ?_⟩
          · rw [hErr, herr1]; simp [listErr]; omega
          · refine passUps (index, u) upsR hU1 ⟨Stat.applyTo node, Or.inl rfl, ?_⟩
            rw [hu]
            rfl
          · intro p hp
            rcases List.mem_cons.mp hp with hp | hp
            · subst hp
              refine ⟨fun a ha => ?_, fun c hc => (by cases hc)⟩
              cases ha
              rw [hu]
              exact List.mem_cons_self _ _
            · exact ⟨fun a ha => List.mem_cons_of_mem _ ((hU2 p hp).1 a ha),
                fun c hc => List.mem_cons_of_mem _ ((hU2 p hp).2 c hc)⟩
          · simp only [List.map_cons]; exact List.Sublist.cons₂ _ hSub
    | childrenOf node =>
      simp only [checkLoop] at h
      cases hac : childrenOfCheck opcodes tbls node st with
      | none => rw [hac] at h; cases h
      | some p =>
        obtain ⟨st1, u⟩ := p
        rw [hac] at h
        dsimp only at h
        obtain ⟨herr1, hu⟩ := childrenOfCheck_spec opcodes tbls node st st1 u hac
        cases hrec : checkLoop opcodes tbls tl st1 with
        | none => rw [hrec] at h; simp [checkLoop.consUpdate] at h
        | some q =>
          obtain ⟨st2, upsR⟩ := q
          rw [hrec] at h
          simp only [checkLoop.consUpdate] at h
          cases h
          obtain ⟨hErr, hU1, hU2, hSub⟩ := ih _ _ _ hrec
          refine ⟨?_, ?_, ?_, ?_⟩
          · rw [hErr, herr1]; simp [listErr]; omega
          · refine passUps (index, u) upsR hU1 ⟨Stat.childrenOf node, Or.inl rfl, ?_⟩
            rw [hu]
            rfl
          · intro p hp
            rcases List.mem_cons.mp hp with hp | hp
            · subst hp
              refine ⟨fun a ha => (by cases ha), fun c hc => ?_⟩
              cases hc
              rw [hu]
              exact List.mem_cons_self _ _
            · exact ⟨fun a ha => List.mem_cons_of_mem _ ((hU2 p hp).1 a ha),
                fun c hc => List.mem_cons_of_mem _ ((hU2 p hp).2 c hc)⟩
          · simp only [List.map_cons]; exact List.Sublist.cons₂ _ hSub

theorem findUpd_eq_none_of_not_mem {j : Nat} :
    ∀ {l : List (Nat × Stat)}, j ∉ l.map Prod.fst → findUpd j l = none := by
  intro l
  induction l with
  | nil => intro _; rfl
  | cons hd tl ih =>
    intro hj
    obtain ⟨i, u⟩ := hd
    simp only [List.map_cons, List.mem_cons] at hj
    push_neg at hj
    simp only [findUpd, if_neg (Ne.symm hj.1)]
    exact ih hj.2

theorem findUpd_mem {j : Nat} {u : Stat} :
    ∀ {l : List (Nat × Stat)}, findUpd j l = some u → (j, u) ∈ l := by
  intro l
  induction l with
  | nil => intro h; cases h
  | cons hd tl ih =>
    intro h
    obtain ⟨i, u'⟩ := hd
    simp only [findUpd] at h
    split at h
    · next hij => cases h; exact hij ▸ List.mem_cons_self _ _
    · exact List.mem_cons_of_mem _ (ih h)

theorem findUpd_isSome_of_mem {j : Nat} {u : Stat} :
    ∀ {l : List (Nat × Stat)}, (j, u) ∈ l → findUpd j l ≠ none := by
  intro l
  induction l with
  | nil => intro h; cases h
  | cons hd tl ih =>
    intro h
    obtain ⟨i, u'⟩ := hd
    simp only [findUpd]
    rcases List.mem_cons.mp h with he | he
    · cases he
      simp
    · split
      · simp
      · exact ih he

theorem applyUpdates_length :
    ∀ (ups : List (Nat × Stat)) (stats : List Stat),
      (applyUpdates stats ups).length = stats.length := by
  intro ups
  induction ups with
  | nil => intro stats; rfl
  | cons hd tl ih =>
    intro stats
    obtain ⟨i, u⟩ := hd
    simp only [applyUpdates]
    rw [ih, List.length_set]

theorem applyUpdates_getElem :
    ∀ (ups : List (Nat × Stat)) (stats : List Stat),
      (ups.map Prod.fst).Nodup →
      (∀ p ∈ ups, p.1 < stats.length) →
      ∀ j, (applyUpdates stats ups)[j]? =
        match findUpd j ups with
        | some u => some u
        | none => stats[j]? := by
  intro ups
  induction ups with
  | nil => intro stats _ _ j; rfl
  | cons hd tl ih =>
    intro stats hnd hbnd j
    obtain ⟨i, u⟩ := hd
    simp only [List.map_cons, List.nodup_cons] at hnd
    obtain ⟨hnotin, hndTl⟩ := hnd
    have hbndTl : ∀ p ∈ tl, p.1 < (stats.set i u).length := by
      intro p hp
      rw [List.length_set]
      exact hbnd p (List.mem_cons_of_mem _ hp)
    have hi : i < stats.length := hbnd (i, u) (List.mem_cons_self _ _)
    simp only [applyUpdates]
    rw [ih (stats.set i u) hndTl hbndTl j]
    by_cases hij : i = j
    · subst hij
      rw [findUpd_eq_none_of_not_mem hnotin]
      simp only [findUpd, if_pos rfl]
      simp [List.getElem?_set, hi]
    · simp only [findUpd, if_neg hij]
      cases hf : findUpd j tl with
      | some u' => rfl
      | none =>
        simp [List.getElem?_set, hij]

theorem map_sum_zero {α : Type} (f : α → Nat) :
    ∀ (l : List α), (l.map f).sum = 0 → ∀ x ∈ l, f x = 0 := by
  intro l
  induction l with
  | nil => intro _ x hx; cases hx
  | cons hd tl ih =>
    intro h x hx
    simp only [List.map_cons, List.sum_cons] at h
    rcases List.mem_cons.mp hx with he | he
    · subst he; omega
    · exact ih (by omega) x he

theorem symbolCheckB_true_elim {opcodes : List Stat} {tbls : Tables} {ident : Ident}
    (h : symbolCheckB opcodes tbls ident = true) :
    ∃ sp k, lookupA ident.2 tbls.symbols = some (sp, k) ∧
      ∀ g : Group, opcodes[k]? ≠ some (.group g) := by
  unfold symbolCheckB at h
  cases hl : lookupA ident.2 tbls.symbols with
  | none => rw [hl] at h; cases h
  | some v =>
    obtain ⟨sp, k⟩ := v
    rw [hl] at h
    dsimp only at h
    refine ⟨sp, k, rfl, ?_⟩
    intro g hg
    rw [hg] at h
    cases h

theorem symbolCheckErr_zero_elim {opcodes : List Stat} {tbls : Tables} {ident : Ident}
    (h : symbolCheckErr opcodes tbls ident true = 0) :
    ∃ sp k, lookupA ident.2 tbls.symbols = some (sp, k) ∧
      ∀ g : Group, opcodes[k]? ≠ some (.group g) := by
  unfold symbolCheckErr at h
  cases hl : lookupA ident.2 tbls.symbols with
  | none => rw [hl] at h; cases h
  | some v =>
    obtain ⟨sp, k⟩ := v
    rw [hl] at h
    dsimp only at h
    refine ⟨sp, k, rfl, ?_⟩
    intro g hg
    rw [hg] at h
    simp at h

theorem expandE_mem_cases {opcodes : List Stat} {tbls : Tables} {ident c : Ident}
    (h : c ∈ expandE opcodes tbls ident) :
    (symbolCheckB opcodes tbls ident = true ∧ c = ident) ∨
    (∃ sp k g, lookupA ident.2 tbls.groups = some (sp, k) ∧
      opcodes[k]? = some (.group g) ∧ c ∈ g.children) := by
  unfold expandE at h
  by_cases hb : symbolCheckB opcodes tbls ident = true
  · rw [if_pos hb] at h
    rcases List.mem_cons.mp h with he | he
    · exact Or.inl ⟨hb, he⟩
    · cases he
  · rw [if_neg hb] at h
    right
    cases hl : lookupA ident.2 tbls.groups with
    | none => rw [hl] at h; cases h
    | some v =>
      obtain ⟨sp, k⟩ := v
      rw [hl] at h
      dsimp only at h
      cases hg : opcodes[k]? with
      | none => rw [hg] at h; cases h
      | some s =>
        rw [hg] at h
        cases s with
        | group g => exact ⟨sp, k, g, rfl, hg, h⟩
        | element g => cases h
        | leaf g => cases h
        | attr g => cases h
        | data g => cases h
        | mixin g => cases h
        | enum g => cases h
        | applyTo g => cases h
        | childrenOf g => cases h

theorem enumFrom_map_fst :
    ∀ (stats : List Stat) (k : Nat),
      (enumFrom k stats).map Prod.fst = List.range' k stats.length := by
  intro stats
  induction stats with
  | nil => intro k; rfl
  | cons hd tl ih =>
    intro k
    simp only [enumFrom, List.map_cons, List.length_cons, List.range'_succ]
    rw [ih]

/-- Core invariant: a successful analysis leaves no link endpoint naming a
group declaration. -/
theorem semanticAnalyze_no_group_endpoint (stats out : List Stat)
    (ds : List AnalyzerError)
    (h : semanticAnalyze stats = some (true, out, ds)) :
    ∀ s ∈ out, ∀ c ∈ s.endpoints, groupNameB stats c.2 = false := by
  unfold semanticAnalyze at h
  rcases hbi : buildIndex stats with ⟨tbls, st0⟩
  rw [hbi] at h
  dsimp only at h
  cases hcl : checkLoop stats tbls (enumFrom 0 stats) st0 with
  | none => rw [hcl] at h; cases h
  | some p =>
    obtain ⟨st1, ups⟩ := p
    rw [hcl] at h
    dsimp only at h
    simp only [Option.some.injEq, Prod.mk.injEq] at h
    obtain ⟨hflag, hout, hds⟩ := h
    have herrz : st1.errors = 0 := by
      exact of_decide_eq_true hflag
    obtain ⟨hErr, hU1, hU2, hSub⟩ := checkLoop_spec stats tbls (enumFrom 0 stats) st0 st1 ups hcl
    have htbls : tbls = (buildIndex stats).1 := by rw [hbi]
    have hbi_err : ((buildIndex stats).2).errors = 0 := by
      rw [hbi]
      dsimp only
      omega
    have hlistz : listErr stats tbls (enumFrom 0 stats) = 0 := by omega
    have hzero : ∀ p ∈ enumFrom 0 stats, statErr stats tbls p.2 = 0 := by
      intro p hp
      unfold listErr at hlistz
      have := map_sum_zero (fun q => statErr stats tbls q.2) (enumFrom 0 stats) hlistz p hp
      exact this
    have hresolve : ∀ (n : String) (sp : Span) (k : Nat),
        lookupA n tbls.symbols = some (sp, k) →
        (∀ g : Group, stats[k]? ≠ some (.group g)) →
        groupNameB stats n = false := by
      intro n sp k hlk hng
      exact not_groupName_of_resolves stats tbls htbls hbi_err n sp k hlk hng
    have hexpandE_clean : ∀ (ident c : Ident), c ∈ expandE stats tbls ident →
        groupNameB stats c.2 = false := by
      intro ident c hc
      rcases expandE_mem_cases hc with ⟨hb, rfl⟩ | ⟨sp, k, g, hlg, hgk, hcg⟩
      · obtain ⟨sp, k, hlk, hng⟩ := symbolCheckB_true_elim hb
        exact hresolve _ sp k hlk hng
      · have hmem : (k, Stat.group g) ∈ enumFrom 0 stats := by
          have := enumFrom_mem_of_getElem stats 0 k _ hgk
          simpa using this
        have hgz := hzero (k, Stat.group g) hmem
        simp only [statErr] at hgz
        unfold groupErr at hgz
        have hce := map_sum_zero (fun c => symbolCheckErr stats tbls c true)
          g.children hgz c hcg
        obtain ⟨sp', m, hlk, hng⟩ := symbolCheckErr_zero_elim hce
        exact hresolve _ sp' m hlk hng
    have hbnd : ∀ p ∈ ups, p.1 < stats.length := by
      intro p hp
      obtain ⟨s0, hmem, -⟩ := hU1 p hp
      have hg2 := getElem_of_enumFrom_mem stats 0 p.1 s0 hmem
      have hg : stats[p.1]? = some s0 := by simpa using hg2.2
      exact (List.getElem?_eq_some.mp hg).1
    have hnd : (ups.map Prod.fst).Nodup := by
      have heq : (enumFrom 0 stats).map Prod.fst = List.range' 0 stats.length :=
        enumFrom_map_fst stats 0
      have hnd' : ((enumFrom 0 stats).map Prod.fst).Nodup := by
        rw [heq]; exact List.nodup_range' _ _
      exact hnd'.sublist hSub
    subst hout
    intro s hs c hc
    obtain ⟨j, hj⟩ := List.mem_iff_getElem?.mp hs
    rw [applyUpdates_getElem ups stats hnd hbnd j] at hj
    cases hf : findUpd j ups with
    | some u =>
      rw [hf] at hj
      dsimp only at hj
      injection hj with hj
      subst hj
      have hmemU : (j, u) ∈ ups := findUpd_mem hf
      obtain ⟨s0, hmem0, hrel⟩ := hU1 (j, u) hmemU
      cases s0 with
      | applyTo a =>
        have hs_eq : u = Stat.applyTo (expandApplyPure stats tbls a) := hrel
        rw [hs_eq] at hc
        simp only [Stat.endpoints, expandApplyPure] at hc
        rcases List.mem_append.mp hc with hcf | hct
        · obtain ⟨ident, hid, hce⟩ := List.mem_flatMap.mp hcf
          exact hexpandE_clean ident c hce
        · obtain ⟨ident, hid, hce⟩ := List.mem_flatMap.mp hct
          exact hexpandE_clean ident c hce
      | childrenOf c0 =>
        have hs_eq : u = Stat.childrenOf (expandChildrenPure stats tbls c0) := hrel
        rw [hs_eq] at hc
        simp only [Stat.endpoints, expandChildrenPure] at hc
        rcases List.mem_append.mp hc with hcf | hct
        · obtain ⟨ident, hid, hce⟩ := List.mem_flatMap.mp hcf
          exact hexpandE_clean ident c hce
        · obtain ⟨ident, hid, hce⟩ := List.mem_flatMap.mp hct
          exact hexpandE_clean ident c hce
      | element n =>
        obtain ⟨nn, rfl⟩ := hrel
        simp [Stat.endpoints] at hc
      | leaf n =>
        obtain ⟨nn, rfl⟩ := hrel
        simp [Stat.endpoints] at hc
      | attr n =>
        obtain ⟨nn, rfl⟩ := hrel
        simp [Stat.endpoints] at hc
      | data n =>
        obtain ⟨nn, rfl⟩ := hrel
        simp [Stat.endpoints] at hc
      | mixin n => cases hrel
      | enum e => cases hrel
      | group g => cases hrel
    | none =>
      rw [hf] at hj
      dsimp only at hj
      cases s with
      | applyTo a =>
        exfalso
        have hmem : (j, Stat.applyTo a) ∈ enumFrom 0 stats := by
          have := enumFrom_mem_of_getElem stats 0 j _ hj
          simpa using this
        have hup := (hU2 (j, Stat.applyTo a) hmem).1 a rfl
        exact findUpd_isSome_of_mem hup hf
      | childrenOf c0 =>
        exfalso
        have hmem : (j, Stat.childrenOf c0) ∈ enumFrom 0 stats := by
          have := enumFrom_mem_of_getElem stats 0 j _ hj
          simpa using this
        have hup := (hU2 (j, Stat.childrenOf c0) hmem).2 c0 rfl
        exact findUpd_isSome_of_mem hup hf
      | element n => simp [Stat.endpoints] at hc
      | leaf n => simp [Stat.endpoints] at hc
      | attr n => simp [Stat.endpoints] at hc
      | data n => simp [Stat.endpoints] at hc
      | mixin n => simp [Stat.endpoints] at hc
      | enum e => simp [Stat.endpoints] at hc
      | group g => simp [Stat.endpoints] at hc

theorem insertSorted_perm (x : String) :
    ∀ l : List String, (insertSorted x l).Perm (x :: l) := by
  intro l
  induction l with
  | nil => simp [insertSorted]
  | cons y ys ih =>
    simp only [insertSorted]
    split
    · exact List.Perm.refl _
    · exact (ih.cons y).trans (List.Perm.swap x y ys)

theorem sortStrings_perm : ∀ l : List String, (sortStrings l).Perm l := by
  intro l
  induction l with
  | nil => simp [sortStrings]
  | cons a l ih =>
    simp only [sortStrings, List.foldr_cons]
    exact (insertSorted_perm a _).trans (ih.cons a)

theorem insertSorted_sorted (x : String) :
    ∀ l : List String, l.Sorted (· ≤ ·) → (insertSorted x l).Sorted (· ≤ ·) := by
  intro l
  induction l with
  | nil => intro _; simp [insertSorted]
  | cons y ys ih =>
    intro h
    rw [List.sorted_cons] at h
    obtain ⟨hy, hys⟩ := h
    simp only [insertSorted]
    split
    · next hxy =>
      rw [List.sorted_cons]
      refine ⟨?_, List.sorted_cons.mpr ⟨hy, hys⟩⟩
      intro b hb
      rcases List.mem_cons.mp hb with rfl | hb
      · exact hxy
      · exact le_trans hxy (hy b hb)
    · next hxy =>
      rw [List.sorted_cons]
      refine ⟨?_, ih hys⟩
      intro b hb
      have hperm := insertSorted_perm x ys
      have hb' : b ∈ x :: ys := hperm.mem_iff.mp hb
      rcases List.mem_cons.mp hb' with rfl | hb'
      · exact le_of_not_le hxy
      · exact hy b hb'

theorem sortStrings_sorted : ∀ l : List String, (sortStrings l).Sorted (· ≤ ·) := by
  intro l
  induction l with
  | nil => simp [sortStrings]
  | cons a l ih =>
    simp only [sortStrings, List.foldr_cons]
    exact insertSorted_sorted a _ ih

theorem sortStrings_eq_of_perm {l₁ l₂ : List String} (h : l₁.Perm l₂) :
    sortStrings l₁ = sortStrings l₂ :=
  List.eq_of_perm_of_sorted
    ((sortStrings_perm l₁).trans (h.trans (sortStrings_perm l₂).symm))
    (sortStrings_sorted l₁) (sortStrings_sorted l₂)

theorem clauseFor_spec {ao : String → List String}
    {af : List (String × List String)} {dn : List (String × String)}
    {k : String} {cl : AttrClause} (h : clauseFor ao af dn k = some cl) :
    cl.key = k ∧ cl.attrs = sortStrings (ao k) := by
  unfold clauseFor at h
  cases hd : lookupG k dn with
  | none => rw [hd] at h; cases h
  | some ty =>
    rw [hd] at h
    dsimp only at h
    cases hm : (sortStrings (ao k)).mapM (armsForAttr af dn) with
    | none => rw [hm] at h; cases h
    | some armLists =>
      rw [hm] at h
      dsimp only at h
      cases h
      exact ⟨rfl, rfl⟩

theorem mapM_clauseFor_spec (ao : String → List String)
    (af : List (String × List String)) (dn : List (String × String)) :
    ∀ (l : List String) (clauses : List AttrClause),
      l.mapM (clauseFor ao af dn) = some clauses →
      clauses.map AttrClause.key = l ∧
      ∀ cl ∈ clauses, cl.attrs = sortStrings (ao cl.key) := by
  intro l
  induction l with
  | nil =>
    intro clauses h
    simp only [List.mapM_nil, pure, Option.some.injEq] at h
    subst h
    exact ⟨rfl, fun cl hcl => absurd hcl (List.not_mem_nil _)⟩
  | cons k rest ih =>
    intro clauses h
    rw [List.mapM_cons] at h
    cases hc : clauseFor ao af dn k with
    | none => rw [hc] at h; cases h
    | some cl =>
      rw [hc] at h
      cases hm : rest.mapM (clauseFor ao af dn) with
      | none => rw [hm] at h; cases h
      | some cls =>
        rw [hm] at h
        have h2 : cl :: cls = clauses := by
          simpa using h
        subst h2
        obtain ⟨hkey, hattr⟩ := clauseFor_spec hc
        obtain ⟨hkeys, hattrs⟩ := ih cls hm
        constructor
        · simp [hkeys, hkey]
        · intro c hcmem
          rcases List.mem_cons.mp hcmem with rfl | hcmem
          · rw [hattr, hkey]
          · exact hattrs c hcmem

theorem clauseFor_congr {ao₁ ao₂ : String → List String}
    {af : List (String × List String)} {dn : List (String × String)}
    (h : ∀ k, sortStrings (ao₁ k) = sortStrings (ao₂ k)) (k : String) :
    clauseFor ao₁ af dn k = clauseFor ao₂ af dn k := by
  unfold clauseFor
  rw [h k]

theorem mapM_clauseFor_congr {ao₁ ao₂ : String → List String}
    {af : List (String × List String)} {dn : List (String × String)}
    (h : ∀ k, sortStrings (ao₁ k) = sortStrings (ao₂ k)) :
    ∀ l : List String, l.mapM (clauseFor ao₁ af dn) = l.mapM (clauseFor ao₂ af dn) := by
  intro l
  induction l with
  | nil => rfl
  | cons k rest ih =>
    rw [List.mapM_cons, List.mapM_cons, clauseFor_congr h, ih]

theorem ensureKeyword_ok_elim {kw : String} {input : List Char} {pos : Nat}
    {sp : Span} {pos' : Nat} (h : ensureKeyword kw input pos = .ok sp pos') :
    sp = ⟨pos, kw.toList.length⟩ ∧
    (input.drop pos).take kw.toList.length = kw.toList ∧
    pos' = pos + kw.toList.length := by
  unfold ensureKeyword at h
  split at h
  · next hc => cases h; exact ⟨rfl, hc, rfl⟩
  · cases h

theorem ensureChar_ok_elim {c : Char} {input : List Char} {pos : Nat}
    {sp : Span} {pos' : Nat} (h : ensureChar c input pos = .ok sp pos') :
    sp = ⟨pos, 1⟩ ∧ input[pos]? = some c ∧ pos' = pos + 1 := by
  unfold ensureChar at h
  split at h
  · next hc => cases h; exact ⟨rfl, hc, rfl⟩
  · cases h

theorem fatalize_ok_elim {α : Type} {r : PResult α} {e : ParseError} {p : Nat}
    {v : α} {q : Nat} (h : r.fatalize e p = .ok v q) : r = .ok v q := by
  cases r with
  | ok v' q' => simpa [PResult.fatalize] using h
  | miss e' => simp [PResult.fatalize] at h
  | fatal e' p' => simp [PResult.fatalize] at h
  | panicked m => simp [PResult.fatalize] at h

/-- Span invariant of `FromSrc for Group`: the recorded span runs from the
`group` keyword occurrence through the terminating `;` inclusive. -/
theorem parseGroup_span (input : List Char) (pos : Nat) (g : Group) (pos' : Nat)
    (h : parseGroup input pos = .ok g pos') :
    ∃ kwPos semiPos,
      (input.drop kwPos).take 5 = "group".toList ∧
      input[semiPos]? = some ';' ∧
      g.span = ⟨kwPos, semiPos + 1 - kwPos⟩ := by
  unfold parseGroup at h
  cases h0 : parsePrefixMeta input pos with
  | ok meta pos0 =>
    obtain ⟨comments, properties⟩ := meta
    rw [h0] at h
    dsimp only at h
    cases h1 : ensureKeyword "group" input (skipWs input pos0) with
    | ok start pos1 =>
      rw [h1] at h
      dsimp only at h
      obtain ⟨hstart, hkw, hpos1⟩ := ensureKeyword_ok_elim h1
      cases h2 : parseIdent input (skipWs input pos1) with
      | ok ident pos2 =>
        rw [h2] at h
        dsimp only at h
        cases h3 : (ensureKeyword ":=" input (skipWs input pos2)).fatalize
            (.group .assign) (skipWs input pos2) with
        | ok asg pos3 =>
          rw [h3] at h
          dsimp only at h
          cases h4 : parseTupleIdents input (skipWs input pos3) with
          | ok children pos4 =>
            rw [h4] at h
            dsimp only at h
            cases h5 : (ensureChar ';' input (skipWs input pos4)).fatalize
                (.group .endKw) (skipWs input pos4) with
            | ok stop pos5 =>
              rw [h5] at h
              dsimp only at h
              cases h
              obtain ⟨hstop, hsemi, hpos5⟩ := ensureChar_ok_elim (fatalize_ok_elim h5)
              refine ⟨skipWs input pos0, skipWs input pos4, hkw, hsemi, ?_⟩
              rw [hstart, hstop]
              rfl
            | miss e => rw [h5] at h; cases h
            | fatal e p => rw [h5] at h; cases h
            | panicked m => rw [h5] at h; cases h
          | miss e => rw [h4] at h; cases h
          | fatal e p => rw [h4] at h; cases h
          | panicked m => rw [h4] at h; cases h
        | miss e => rw [h3] at h; cases h
        | fatal e p => rw [h3] at h; cases h
        | panicked m => rw [h3] at h; cases h
      | miss e => rw [h2] at h; cases h
      | fatal e p => rw [h2] at h; cases h
      | panicked m => rw [h2] at h; cases h
    | miss e => rw [h1] at h; cases h
    | fatal e p => rw [h1] at h; cases h
    | panicked m => rw [h1] at h; cases h
  | miss e => rw [h0] at h; cases h
  | fatal e p => rw [h0] at h; cases h
  | panicked m => rw [h0] at h; cases h

/-- Span invariant of `FromSrc for ApplyTo`: from the `apply` keyword through
the terminating `;` inclusive. -/
theorem parseApplyTo_span (input : List Char) (pos : Nat) (a : ApplyTo) (pos' : Nat)
    (h : parseApplyTo input pos = .ok a pos') :
    ∃ kwPos semiPos,
      (input.drop kwPos).take 5 = "apply".toList ∧
      input[semiPos]? = some ';' ∧
      a.span = ⟨kwPos, semiPos + 1 - kwPos⟩ := by
  unfold parseApplyTo at h
  cases h0 : parsePrefixMeta input pos with
  | ok meta pos0 =>
    obtain ⟨comments, properties⟩ := meta
    rw [h0] at h
    dsimp only at h
    cases h1 : ensureKeyword "apply" input (skipWs input pos0) with
    | ok start pos1 =>
      rw [h1] at h
      dsimp only at h
      obtain ⟨hstart, hkw, hpos1⟩ := ensureKeyword_ok_elim h1
      cases h2 : parseIdentOrTuple input (skipWs input pos1) with
      | ok fromList pos2 =>
        rw [h2] at h
        dsimp only at h
        cases h3 : (ensureKeyword "to" input (skipWs input pos2)).fatalize
            (.applyTo .toKw) (skipWs input pos2) with
        | ok tokw pos3 =>
          rw [h3] at h
          dsimp only at h
          cases h4 : (parseIdentOrTuple input (skipWs input pos3)).fatalize
              (.applyTo .target) (skipWs input pos3) with
          | ok toList pos4 =>
            rw [h4] at h
            dsimp only at h
            cases h5 : (ensureChar ';' input (skipWs input pos4)).fatalize
                (.applyTo .endKw) (skipWs input pos4) with
            | ok stop pos5 =>
              rw [h5] at h
              dsimp only at h
              cases h
              obtain ⟨hstop, hsemi, hpos5⟩ := ensureChar_ok_elim (fatalize_ok_elim h5)
              refine ⟨skipWs input pos0, skipWs input pos4, hkw, hsemi, ?_⟩
              rw [hstart, hstop]
              rfl
            | miss e => rw [h5] at h; cases h
            | fatal e p => rw [h5] at h; cases h
            | panicked m => rw [h5] at h; cases h
          | miss e => rw [h4] at h; cases h
          | fatal e p => rw [h4] at h; cases h
          | panicked m => rw [h4] at h; cases h
        | miss e => rw [h3] at h; cases h
        | fatal e p => rw [h3] at h; cases h
        | panicked m => rw [h3] at h; cases h
      | miss e => rw [h2] at h; cases h
      | fatal e p => rw [h2] at h; cases h
      | panicked m => rw [h2] at h; cases h
    | miss e => rw [h1] at h; cases h
    | fatal e p => rw [h1] at h; cases h
    | panicked m => rw [h1] at h; cases h
  | miss e => rw [h0] at h; cases h
  | fatal e p => rw [h0] at h; cases h
  | panicked m => rw [h0] at h; cases h

/-- Span invariant of `FromSrc for ChildrenOf`: from the `children` keyword
through the terminating `;` inclusive. -/
theorem parseChildrenOf_span (input : List Char) (pos : Nat) (c : ChildrenOf)
    (pos' : Nat) (h : parseChildrenOf input pos = .ok c pos') :
    ∃ kwPos semiPos,
      (input.drop kwPos).take 8 = "children".toList ∧
      input[semiPos]? = some ';' ∧
      c.span = ⟨kwPos, semiPos + 1 - kwPos⟩ := by
  unfold parseChildrenOf at h
  cases h0 : parsePrefixMeta input pos with
  | ok meta pos0 =>
    obtain ⟨comments, properties⟩ := meta
    rw [h0] at h
    dsimp only at h
    cases h1 : ensureKeyword "children" input (skipWs input pos0) with
    | ok start pos1 =>
      rw [h1] at h
      dsimp only at h
      obtain ⟨hstart, hkw, hpos1⟩ := ensureKeyword_ok_elim h1
      cases h2 : (parseIdentOrTuple input (skipWs input pos1)).fatalize
          (.childrenOf .fromKw) (skipWs input pos1) with
      | ok fromList pos2 =>
        rw [h2] at h
        dsimp only at h
        cases h3 : (ensureKeyword "of" input (skipWs input pos2)).fatalize
            (.childrenOf .fromKw) (skipWs input pos2) with
        | ok ofkw pos3 =>
          rw [h3] at h
          dsimp only at h
          cases h4 : (parseIdentOrTuple input (skipWs input pos3)).fatalize
              (.childrenOf .toKw) (skipWs input pos3) with
          | ok toList pos4 =>
            rw [h4] at h
            dsimp only at h
            cases h5 : (ensureChar ';' input (skipWs input pos4)).fatalize
                (.childrenOf .endKw) (skipWs input pos4) with
            | ok stop pos5 =>
              rw [h5] at h
              dsimp only at h
              cases h
              obtain ⟨hstop, hsemi, hpos5⟩ := ensureChar_ok_elim (fatalize_ok_elim h5)
              refine ⟨skipWs input pos0, skipWs input pos4, hkw, hsemi, ?_⟩
              rw [hstart, hstop]
              rfl
            | miss e => rw [h5] at h; cases h
            | fatal e p => rw [h5] at h; cases h
            | panicked m => rw [h5] at h; cases h
          | miss e => rw [h4] at h; cases h
          | fatal e p => rw [h4] at h; cases h
          | panicked m => rw [h4] at h; cases h
        | miss e => rw [h3] at h; cases h
        | fatal e p => rw [h3] at h; cases h
        | panicked m => rw [h3] at h; cases h
      | miss e => rw [h2] at h; cases h
      | fatal e p => rw [h2] at h; cases h
      | panicked m => rw [h2] at h; cases h
    | miss e => rw [h1] at h; cases h
    | fatal e p => rw [h1] at h; cases h
    | panicked m => rw [h1] at h; cases h
  | miss e => rw [h0] at h; cases h
  | fatal e p => rw [h0] at h; cases h
  | panicked m => rw [h0] at h; cases h

/-- Span invariant of `FromSrc for Enum`: the span starts at the statement's
entry position — before any leading trivia, not at the `enum` keyword — and
ends at the closing `}` inclusive. -/
theorem parseEnum_span (input : List Char) (pos : Nat) (e : EnumDecl) (pos' : Nat)
    (h : parseEnum input pos = .ok e pos') :
    ∃ bracePos,
      input[bracePos]? = some '}' ∧
      e.span = ⟨pos, bracePos + 1 - pos⟩ := by
  unfold parseEnum at h
  cases h0 : parsePrefixMeta input pos with
  | ok meta pos0 =>
    obtain ⟨comments, properties⟩ := meta
    rw [h0] at h
    dsimp only at h
    cases h1 : ensureKeyword "enum" input pos0 with
    | ok start pos1 =>
      rw [h1] at h
      dsimp only at h
      cases h2 : (parseIdent input (skipWs input pos1)).fatalize
          (.enumErr .identExpected) (skipWs input pos1) with
      | ok ident pos2 =>
        rw [h2] at h
        dsimp only at h
        cases h3 : (ensureChar '{' input (skipWs input pos2)).fatalize
            (.enumErr .bodyStart) (skipWs input pos2) with
        | ok brace pos3 =>
          rw [h3] at h
          dsimp only at h
          cases h4 : parseEnumVariantsF (input.length + 1) input pos3 with
          | ok fields pos4 =>
            rw [h4] at h
            dsimp only at h
            cases h5 : (ensureChar '}' input pos4).fatalize
                (.enumErr .bodyEnd) pos4 with
            | ok stop pos5 =>
              rw [h5] at h
              dsimp only at h
              cases h
              obtain ⟨hstop, hbrace, hpos5⟩ := ensureChar_ok_elim (fatalize_ok_elim h5)
              refine ⟨pos4, hbrace, ?_⟩
              rw [hstop]
              rfl
            | miss e2 => rw [h5] at h; cases h
            | fatal e2 p => rw [h5] at h; cases h
            | panicked m => rw [h5] at h; cases h
          | miss e2 => rw [h4] at h; cases h
          | fatal e2 p => rw [h4] at h; cases h
          | panicked m => rw [h4] at h; cases h
        | miss e2 => rw [h3] at h; cases h
        | fatal e2 p => rw [h3] at h; cases h
        | panicked m => rw [h3] at h; cases h
      | miss e2 => rw [h2] at h; cases h
      | fatal e2 p => rw [h2] at h; cases h
      | panicked m => rw [h2] at h; cases h
    | miss e2 => rw [h1] at h; cases h
    | fatal e2 p => rw [h1] at h; cases h
    | panicked m => rw [h1] at h; cases h
  | miss e2 => rw [h0] at h; cases h
  | fatal e2 p => rw [h0] at h; cases h
  | panicked m => rw [h0] at h; cases h

/-- Span invariant of `parse_node_body`: the node span starts at the entry
position (the declaration identifier, after the keyword) and stops at the
position reached after the fields — it never includes the terminating `;`. -/
theorem parseNodeBody_span (input : List Char) (pos : Nat) (n : Node) (pos' : Nat)
    (h : parseNodeBody input pos = .ok n pos') :
    n.span = ⟨pos, pos' - pos⟩ := by
  unfold parseNodeBody at h
  cases h1 : parseIdent input pos with
  | ok ident pos1 =>
    rw [h1] at h
    dsimp only at h
    cases h2 : ensureKeyword "mixin" input (skipWs input pos1) with
    | ok mx pos2 =>
      rw [h2] at h
      dsimp only at h
      cases h3 : (parseIdent input (skipWs input pos2)).fatalize
          (.node .mixinIdent) (skipWs input pos2) with
      | ok mixinIdent pos3 =>
        rw [h3] at h
        dsimp only at h
        cases h4 : (parseFields input (skipWs input pos3)).fatalize
            (.node .fieldsExpected) (skipWs input pos3) with
        | ok fields pos4 =>
          rw [h4] at h
          dsimp only at h
          cases h
          rfl
        | miss e2 => rw [h4] at h; cases h
        | fatal e2 p => rw [h4] at h; cases h
        | panicked m => rw [h4] at h; cases h
      | miss e2 => rw [h3] at h; cases h
      | fatal e2 p => rw [h3] at h; cases h
      | panicked m => rw [h3] at h; cases h
    | miss e2 =>
      rw [h2] at h
      dsimp only at h
      cases h4 : (parseFields input (skipWs input pos1)).fatalize
          (.node .fieldsExpected) (skipWs input pos1) with
      | ok fields pos4 =>
        rw [h4] at h
        dsimp only at h
        cases h
        rfl
      | miss e3 => rw [h4] at h; cases h
      | fatal e3 p => rw [h4] at h; cases h
      | panicked m => rw [h4] at h; cases h
    | fatal e2 p =>
      rw [h2] at h
      dsimp only at h
      cases h4 : (parseFields input (skipWs input pos1)).fatalize
          (.node .fieldsExpected) (skipWs input pos1) with
      | ok fields pos4 =>
        rw [h4] at h
        dsimp only at h
        cases h
        rfl
      | miss e3 => rw [h4] at h; cases h
      | fatal e3 p2 => rw [h4] at h; cases h
      | panicked m => rw [h4] at h; cases h
    | panicked m =>
      rw [h2] at h
      dsimp only at h
      cases h4 : (parseFields input (skipWs input pos1)).fatalize
          (.node .fieldsExpected) (skipWs input pos1) with
      | ok fields pos4 =>
        rw [h4] at h
        dsimp only at h
        cases h
        rfl
      | miss e3 => rw [h4] at h; cases h
      | fatal e3 p2 => rw [h4] at h; cases h
      | panicked m2 => rw [h4] at h; cases h
  | miss e2 => rw [h1] at h; cases h
  | fatal e2 p => rw [h1] at h; cases h
  | panicked m => rw [h1] at h; cases h

/-- Claim C1 (evidence of the code/spec divergence): `semantic_analyze` is
claimed to return true iff no analyzer diagnostic was reported; but on a
declaration whose `rename` call has zero parameters the analyzer reports the
`Rename` diagnostic without incrementing the error count, so the run returns
`true` with a non-empty diagnostic list. -/
theorem c1_rename_diagnostic_yet_success :
    semanticAnalyze [c1Stat] = some (true, [c1Stat], [AnalyzerError.rename]) ∧
    ([AnalyzerError.rename] : List AnalyzerError) ≠ [] := by
  exact ⟨rfl, by decide⟩

/-- Claim C2 (evidence of the code/spec divergence): on `el Y mixin Missing`
the analyzer reports `Unknown("Missing")` without counting an error and
leaves the node untouched, so `semantic_analyze` returns `true` while the
surviving node still carries a non-empty mixin slot. -/
theorem c2_mixin_survives_successful_run :
    semanticAnalyze [c2Stat] = some (true, [c2Stat], [AnalyzerError.unknown "Missing"]) ∧
    c2Node.mixin = some (⟨11, 7⟩, "Missing") := by
  exact ⟨rfl, rfl⟩

/-- Claim C3 (counterexample): on the claim's literal input the two
statements parse but leave the stray trailing `;` unconsumed (a
named-fields node takes no terminating `;`), so the statement loop panics
through the `assert_eq!` in `FromSrc for Stat` instead of producing a
statement list — analysis never runs and does not succeed on this input. -/
theorem c3_literal_input_panics :
    parseProgram c3src = .panicked "Unparsed codes" ∧
    ∀ (stats : List Stat) (n : Nat), parseProgram c3src ≠ .ok stats n := by
  refine ⟨rfl, ?_⟩
  intro stats n h
  have h' : (PResult.panicked "Unparsed codes" : PResult (List Stat)) = .ok stats n := h
  cases h'

/-- Claim C3 (amended): for the §8 B input without the stray trailing `;`,
the whole pipeline succeeds: `parse` returns exactly the `mixin Common` and
`el Rect` statements consuming the full input, analysis succeeds with no
diagnostics, and the surviving `Rect` carries exactly the fields
`id, w, h` in that order with the mixin slot cleared. -/
theorem c3_mixin_merge_scenario :
    parseProgram c3srcOk = .ok [.mixin c3Common, .element c3Rect] 70 ∧
    c3srcOk.length = 70 ∧
    semanticAnalyze [.mixin c3Common, .element c3Rect]
      = some (true, [.mixin c3Common, .element c3RectOut], []) ∧
    c3RectOut.mixin = none ∧
    (match c3RectOut.fields with
     | .named fs => fs.map (fun f => f.ident.2)
     | _ => []) = ["id", "w", "h"] := by
  refine ⟨rfl, rfl, rfl, rfl, rfl⟩

/-- Claim C4 (counterexample): the enum-variant serializer passes the raw
source identifier, not the display name: for the variant field `my_value`
the generated `serialize_field` name argument is `Some("my_value")` while
the display-name rule demands `Some("myValue")`. -/
theorem c4_variant_field_uses_source_ident :
    (genSerializeEnum 0 c4Enum) =
      [{ typeId := 0, enumName := "hello", variantName := "a", variantIdx := 0,
         fieldCount := 1, fieldCalls := [⟨0, some "my_value"⟩] }] ∧
    fieldDisplayName c4Field = "myValue" ∧
    (some "my_value" : Option String) ≠ some "myValue" := by
  refine ⟨rfl, rfl, by decide⟩

/-- Claim C4 (amended): for node declarations (`el`/`leaf`/`attr`/`data`)
each generated `serialize_field` call passes `Some(display name)` — the
`rename` value if present, otherwise lower-camel-case of the identifier —
for a named field and `None` for a positional one; for enum variants a
named field instead gets `Some(source identifier)`, a positional one
`None`. -/
theorem c4_serialize_field_names :
    (∀ (sfn : String) (tid : Nat) (n : Node) (fs : List NamedField) (i : Nat)
       (f : NamedField), n.fields = .named fs → fs[i]? = some f →
       (genSerializeNode sfn tid n).fieldCalls[i]? = some ⟨i, some (fieldDisplayName f)⟩) ∧
    (∀ (sfn : String) (tid : Nat) (n : Node) (fs : List UnnamedField) (i : Nat),
       n.fields = .unnamed fs → i < fs.length →
       (genSerializeNode sfn tid n).fieldCalls[i]? = some ⟨i, none⟩) ∧
    (∀ (tid : Nat) (e : EnumDecl) (j : Nat) (v : Node) (impl : VariantSerImpl),
       e.fields[j]? = some v → (genSerializeEnum tid e)[j]? = some impl →
       (∀ (fs : List NamedField) (i : Nat) (f : NamedField),
          v.fields = .named fs → fs[i]? = some f →
          impl.fieldCalls[i]? = some ⟨i, some f.ident.2⟩) ∧
       (∀ (fs : List UnnamedField) (i : Nat), v.fields = .unnamed fs → i < fs.length →
          impl.fieldCalls[i]? = some ⟨i, none⟩)) := by
  refine ⟨?_, ?_, ?_⟩
  · intro sfn tid n fs i f hfs hget
    simp [genSerializeNode, nodeSerFieldCalls, hfs, List.getElem?_map,
      List.getElem?_enum, hget]
  · intro sfn tid n fs i hfs hlt
    simp [genSerializeNode, nodeSerFieldCalls, hfs, List.getElem?_map,
      List.getElem?_enum, List.getElem?_eq_getElem hlt]
  · intro tid e j v impl hv himpl
    have himpl2 : impl = ⟨tid, enumDisplayName e, nodeDisplayName v, j,
        (variantSerFieldCalls v.fields).length, variantSerFieldCalls v.fields⟩ := by
      rw [genSerializeEnum] at himpl
      rw [List.getElem?_map, List.getElem?_enum, hv] at himpl
      simpa using himpl.symm
    constructor
    · intro fs i f hfs hget
      rw [himpl2]
      simp [variantSerFieldCalls, hfs, List.getElem?_map, List.getElem?_enum, hget]
    · intro fs i hfs hlt
      rw [himpl2]
      simp [variantSerFieldCalls, hfs, List.getElem?_map, List.getElem?_enum,
        List.getElem?_eq_getElem hlt]

/-- Witness for the amended C4 theorem at the concrete enum `Hello`. -/
theorem c4_serialize_field_names_witness :
    (genSerializeEnum 0 c4Enum)[0]? = some c4Impl ∧
    c4Impl.fieldCalls[0]? = some ⟨0, some "my_value"⟩ := by
  refine ⟨by decide, ?_⟩
  exact (c4_serialize_field_names.2.2 0 c4Enum 0 c4Variant c4Impl
      (by decide) (by decide)).1 [c4Field] 0 c4Field rfl rfl

/-- Claim C5 (counterexample): for `el A();` the recorded span is `⟨3,3⟩` —
from the identifier to just after the fields — not `⟨0,7⟩` (keyword through
`;` inclusive) as claimed; and for `" enum E {}"` the span starts at offset
0 (the statement entry, before leading trivia) while the `enum` keyword
starts at offset 1. -/
theorem c5_span_counterexample :
    parseStat "el A();".toList 0 = .ok (.element c5Node) 7 ∧
    c5Node.span = ⟨3, 3⟩ ∧
    (⟨3, 3⟩ : Span) ≠ ⟨0, 7⟩ ∧
    parseStat " enum E \x7b\x7d".toList 0 = .ok (.enum c5Enum) 10 ∧
    c5Enum.span.offset = 0 ∧
    (" enum E \x7b\x7d".toList.drop 1).take 4 = "enum".toList ∧
    (0 : Nat) ≠ 1 := by
  refine ⟨rfl, rfl, by decide, rfl, rfl, by decide, by decide⟩

/-- Claim C5 (amended): for `group`, `apply … to …` and `children … of …`
statements the span runs from the introducing keyword through the
terminating `;` inclusive; for `enum` statements it runs from the
statement's entry position (before any leading trivia) through the closing
`}` inclusive; for node declarations the span produced by `parse_node_body`
begins at the declaration identifier (after the keyword) and ends right
after the fields, never including a terminating `;`. -/
theorem c5_statement_spans :
    (∀ (input : List Char) (pos : Nat) (g : Group) (pos' : Nat),
       parseGroup input pos = .ok g pos' →
       ∃ kwPos semiPos, (input.drop kwPos).take 5 = "group".toList ∧
         input[semiPos]? = some ';' ∧ g.span = ⟨kwPos, semiPos + 1 - kwPos⟩) ∧
    (∀ (input : List Char) (pos : Nat) (a : ApplyTo) (pos' : Nat),
       parseApplyTo input pos = .ok a pos' →
       ∃ kwPos semiPos, (input.drop kwPos).take 5 = "apply".toList ∧
         input[semiPos]? = some ';' ∧ a.span = ⟨kwPos, semiPos + 1 - kwPos⟩) ∧
    (∀ (input : List Char) (pos : Nat) (c : ChildrenOf) (pos' : Nat),
       parseChildrenOf input pos = .ok c pos' →
       ∃ kwPos semiPos, (input.drop kwPos).take 8 = "children".toList ∧
         input[semiPos]? = some ';' ∧ c.span = ⟨kwPos, semiPos + 1 - kwPos⟩) ∧
    (∀ (input : List Char) (pos : Nat) (e : EnumDecl) (pos' : Nat),
       parseEnum input pos = .ok e pos' →
       ∃ bracePos, input[bracePos]? = some '}' ∧ e.span = ⟨pos, bracePos + 1 - pos⟩) ∧
    (∀ (input : List Char) (pos : Nat) (n : Node) (pos' : Nat),
       parseNodeBody input pos = .ok n pos' → n.span = ⟨pos, pos' - pos⟩) :=
  ⟨parseGroup_span, parseApplyTo_span, parseChildrenOf_span, parseEnum_span,
   parseNodeBody_span⟩

/-- Witness for the amended C5 theorem: the group statement
`group G := (A);` and the node body of `el A();` at their concrete
positions. -/
theorem c5_statement_spans_witness :
    (∃ kwPos semiPos,
       ("group G := (A);".toList.drop kwPos).take 5 = "group".toList ∧
       ("group G := (A);".toList)[semiPos]? = some ';' ∧
       c5Group.span = ⟨kwPos, semiPos + 1 - kwPos⟩) ∧
    c5Node.span = ⟨3, 6 - 3⟩ := by
  constructor
  · exact c5_statement_spans.1 "group G := (A);".toList 0 c5Group 15 rfl
  · exact c5_statement_spans.2.2.2.2 "el A();".toList 3 c5Node 6 rfl

/-- Claim C6 (evidence of the panic): on the input `"?"`, which matches no
statement alternative, `parse` panics through the `assert_eq!` in
`FromSrc for Stat` instead of returning a `ParseError` value. -/
theorem c6_unparsed_input_panics :
    parseProgram "?" = .panicked "Unparsed codes" ∧
    ∀ e : ParseError, (PResult.panicked "Unparsed codes" : PResult (List Stat)) ≠ .miss e := by
  refine ⟨rfl, ?_⟩
  intro e h
  cases h

/-- Claim C7 (evidence of the mislabel): on `children A;` — the from-list
parses, the keyword `of` is missing — the parser fails fatally with
`ChildrenOfKind::From` (message about the from-list), not with
`ChildrenOfKind::Of` ("expect keyword `of`.") as claimed. -/
theorem c7_children_of_mislabel :
    parseChildrenOf "children A;".toList 0 = .fatal (.childrenOf .fromKw) 10 ∧
    ChildrenOfKind.fromKw ≠ ChildrenOfKind.ofKw := by
  refine ⟨rfl, by decide⟩

/-- Claim C8: on every statement sequence accepted by `semantic_analyze`, no
endpoint identifier of a surviving `ApplyTo` or `ChildrenOf` names a group
declaration — every group reference has been expanded away. -/
theorem c8_no_group_endpoints (stats out : List Stat) (ds : List AnalyzerError)
    (h : semanticAnalyze stats = some (true, out, ds)) :
    ∀ s ∈ out, ∀ c ∈ s.endpoints, groupNameB stats c.2 = false :=
  semanticAnalyze_no_group_endpoint stats out ds h

/-- Witness for C8 on the §8 C scenario: the parsed program analyzes
successfully, no surviving endpoint names a group, and the surviving
`ApplyTo` has `to = [A, B]`. -/
theorem c8_no_group_endpoints_witness :
    semanticAnalyze c8Stats = some (true, c8Out, []) ∧
    (∀ s ∈ c8Out, ∀ c ∈ s.endpoints, groupNameB c8Stats c.2 = false) ∧
    c8Out[4]? = some (.applyTo c8ApplyOut) := by
  refine ⟨rfl, ?_, rfl⟩
  exact c8_no_group_endpoints c8Stats c8Out [] rfl

/-- Claim C9: `gen_fields_to_attrs` is insensitive to the iteration order of
the `apply_attrs` hash map and of its inner hash sets — for any two
enumeration orders of the same map the emitted routing table is identical —
and in the emitted table the match-arm clauses appear in lexicographically
sorted order of the target keys, each clause iterating its attribute set in
sorted order. -/
theorem c9_routing_table_deterministic_sorted
    (keys1 keys2 : List String) (ao1 ao2 : String → List String)
    (af : List (String × List String)) (dn : List (String × String))
    (hk : keys1.Perm keys2) (ha : ∀ k, (ao1 k).Perm (ao2 k)) :
    genFieldsToAttrs keys1 ao1 af dn = genFieldsToAttrs keys2 ao2 af dn ∧
    ∀ clauses, genFieldsToAttrs keys1 ao1 af dn = some clauses →
      (clauses.map AttrClause.key).Sorted (· ≤ ·) ∧
      ∀ cl ∈ clauses, cl.attrs.Sorted (· ≤ ·) := by
  constructor
  · unfold genFieldsToAttrs
    rw [sortStrings_eq_of_perm hk]
    exact mapM_clauseFor_congr (fun k => sortStrings_eq_of_perm (ha k)) _
  · intro clauses hcl
    unfold genFieldsToAttrs at hcl
    obtain ⟨hkeys, hattrs⟩ := mapM_clauseFor_spec ao1 af dn _ clauses hcl
    constructor
    · rw [hkeys]
      exact sortStrings_sorted _
    · intro cl hclmem
      rw [hattrs cl hclmem]
      exact sortStrings_sorted _

/-- Witness for C9: two different enumeration orders of the same
`apply_attrs` map produce the same routing table. -/
theorem c9_routing_table_witness :
    genFieldsToAttrs ["Rect", "Circle"] c9ao1 c9af c9dn
      = genFieldsToAttrs ["Circle", "Rect"] c9ao2 c9af c9dn ∧
    ∀ clauses, genFieldsToAttrs ["Rect", "Circle"] c9ao1 c9af c9dn = some clauses →
      (clauses.map AttrClause.key).Sorted (· ≤ ·) ∧
      ∀ cl ∈ clauses, cl.attrs.Sorted (· ≤ ·) := by
  refine c9_routing_table_deterministic_sorted ["Rect", "Circle"] ["Circle", "Rect"]
    c9ao1 c9ao2 c9af c9dn (by decide) ?_
  intro k
  by_cases h1 : k = "Rect"
  · subst h1
    show (c9ao1 "Rect").Perm (c9ao2 "Rect")
    decide
  · by_cases h2 : k = "Circle"
    · subst h2
      show (c9ao1 "Circle").Perm (c9ao2 "Circle")
      decide
    · simp [c9ao1, c9ao2, h1, h2]

/-- Claim C10: the runtime `bool` deserializer's string fallback returns
`true` exactly for the string `"1"` and `false` — without an error — for
every other string, including `"true"` and `"false"`; the typed fallback
returns its boolean unchanged. -/
theorem c10_bool_deserialize :
    boolVisitString "1" = .ok true ∧
    (∀ s : String, s ≠ "1" → boolVisitString s = .ok false) ∧
    boolVisitString "true" = .ok false ∧
    boolVisitString "false" = .ok false ∧
    (∀ b : Bool, boolVisitBool b = .ok b) := by
  refine ⟨rfl, ?_, rfl, rfl, fun b => rfl⟩
  intro s hs
  unfold boolVisitString
  have : (s == "1") = false := by
    exact beq_false_of_ne hs
  rw [this]
  rfl

/-- Witness for C10 at the concrete string `"yes"` and boolean `true`. -/
theorem c10_bool_deserialize_witness :
    boolVisitString "yes" = .ok false ∧ boolVisitBool true = .ok true := by
  exact ⟨c10_bool_deserialize.2.1 "yes" (by decide), c10_bool_deserialize.2.2.2.2 true⟩

end Mlang
